import Mathlib

/-!
Dashboard state merge (assets/components/Dashboard.jsx).

A shallow embedding of the state-merge core of the dashboard front end:
`deepUpdate`, `shouldUpdate`, `replacer`, `appender`, the constants
`defaultContent` and `updaters`, and the websocket handlers installed by
`Dashboard.reconnect`.

Modelling conventions.

* A JavaScript value is a `JSVal`.  An object is the list of its own enumerable
  properties in property order; objects built by the program never repeat a key.
* Inherited properties are not modelled: a property read finds an own property or
  yields `undefined`, and an assignment creates an own property.  This is what
  the source does for every key that is not the name of a property of a built-in
  prototype (`toString`, `constructor`, `__proto__`, `length`, ...).  The keys of
  `updaters` and of `defaultContent` are no such names, and the statements below
  that quantify over keys are made for snapshots whose keys are keys of
  `updaters`.
* Numbers are payload only (the code never computes with them) and are kept as
  integers; strings are indexed by character.
* A thrown exception is `Except.error`; both functions of the source are total
  functions into `Except JSError JSVal`.
* The registry of updaters is a value of its own type `Updater`: a function, an
  object, `null`, or `undefined` (what a read of a missing key gives).  The
  source never enumerates the keys of an updater object, it only reads
  `updater[key]`, so an updater object is the function from keys to children.
* `setState` follows React 16, which index.jsx renders without an error boundary:
  an updater function that throws unmounts the component tree, and `setState` on
  an unmounted component does nothing.
-/

namespace Dashboard

/-- Exceptions the modelled code can raise. -/
inductive JSError where
  | typeError
  | syntaxError
  deriving DecidableEq, Repr

/-- JavaScript values that occur as snapshot, message and marker tree. -/
inductive JSVal where
  | undefined
  | null
  | bool (b : Bool)
  | num (n : Int)
  | str (s : String)
  | arr (items : List JSVal)
  | obj (fields : List (String × JSVal))
  deriving Repr

/-- Nodes of the `updaters` registry: `typeof updater === 'function'` holds exactly
for `fn`. -/
inductive Updater where
  | fn (f : JSVal → JSVal → Except JSError JSVal)
  | obj (get : String → Updater)
  | null
  | undefined

/-- Position denoted by an array-index key among `n` elements, if any. -/
def indexOfKey (n : Nat) (key : String) : Option Nat :=
  (List.range n).find? (fun i => toString i == key)

/-- The call `Object.keys(v)`: throws on `undefined` and `null`, is empty for
booleans and numbers, lists the indices of a string or an array, and the own keys
of an object. -/
def objectKeys : JSVal → Except JSError (List String)
  | .undefined => .error .typeError
  | .null => .error .typeError
  | .bool _ => .ok []
  | .num _ => .ok []
  | .str s => .ok ((List.range s.length).map toString)
  | .arr items => .ok ((List.range items.length).map toString)
  | .obj fields => .ok (fields.map Prod.fst)

/-- The property read `v[key]`: throws on `undefined` and `null`, otherwise the own
property or `undefined`. -/
def getProp : JSVal → String → Except JSError JSVal
  | .undefined, _ => .error .typeError
  | .null, _ => .error .typeError
  | .bool _, _ => .ok .undefined
  | .num _, _ => .ok .undefined
  | .str s, key =>
    match indexOfKey s.length key with
    | some i =>
      .ok (match s.data.get? i with
        | some c => .str (String.singleton c)
        | none => .undefined)
    | none => .ok .undefined
  | .arr items, key =>
    match indexOfKey items.length key with
    | some i => .ok ((items.get? i).getD .undefined)
    | none => .ok .undefined
  | .obj fields, key => .ok ((fields.lookup key).getD .undefined)

/-- The assignment `o[key] = v` on the property list of an object: an existing
property keeps its place, a new one is added last. -/
def setField : List (String × JSVal) → String → JSVal → List (String × JSVal)
  | [], key, v => [(key, v)]
  | (k, w) :: rest, key, v =>
    if k = key then (k, v) :: rest else (k, w) :: setField rest key v

/-- The loop `keys.forEach((key) => { o[key] = f(key); })` followed by `return o`,
started on the properties `acc` of `o`; the first exception thrown by `f` ends it. -/
def buildObject (f : String → Except JSError JSVal) :
    List String → List (String × JSVal) → Except JSError JSVal
  | [], acc => .ok (.obj acc)
  | key :: keys, acc =>
    match f key with
    | .ok v => buildObject f keys (setField acc key v)
    | .error e => .error e

/-- The function `deepUpdate(updater, update, prev)` of Dashboard.jsx.  The three
arguments of the recursive call are evaluated left to right: `updater[key]`
throws when the updater is `null` or `undefined`, `update[key]` when the update is
`null`; `prev[key]` cannot throw once `Object.keys(prev)` has returned. -/
def deepUpdate : Updater → JSVal → JSVal → Except JSError JSVal
  | _, .undefined, prev => .ok prev
  | .fn f, update, prev => f update prev
  | .obj get, update, prev =>
    match objectKeys prev with
    | .error e => .error e
    | .ok keys =>
      buildObject (fun key =>
        match getProp update key with
        | .error e => .error e
        | .ok u =>
          match getProp prev key with
          | .error e => .error e
          | .ok p => deepUpdate (get key) u p) keys []
  | _, _, prev =>
    match objectKeys prev with
    | .error e => .error e
    | .ok keys => buildObject (fun _ => .error .typeError) keys []

/-- The function `shouldUpdate(updater, msg)` with an updater that has no own
properties to read (`null` and `undefined` throw on `updater[key]`). -/
def shouldUpdateThrowing (msg : JSVal) : Except JSError JSVal :=
  match objectKeys msg with
  | .error e => .error e
  | .ok keys => buildObject (fun _ => .error .typeError) keys []

/-- The function `shouldUpdate(updater, msg)` of Dashboard.jsx.  In
`typeof updater[key] !== 'function' ? shouldUpdate(updater[key], msg[key]) : true`
the read `updater[key]` comes first.  The Dashboard never passes a function as
`updater`; a function has none of the keys as own property, so each read gives
`undefined` there. -/
def shouldUpdate : Updater → JSVal → Except JSError JSVal
  | .obj get, msg =>
    match objectKeys msg with
    | .error e => .error e
    | .ok keys =>
      buildObject (fun key =>
        match get key with
        | .fn _ => .ok (.bool true)
        | _ =>
          match getProp msg key with
          | .error e => .error e
          | .ok m => shouldUpdate (get key) m) keys []
  | .fn _, msg =>
    match objectKeys msg with
    | .error e => .error e
    | .ok keys =>
      buildObject (fun key =>
        match getProp msg key with
        | .error e => .error e
        | .ok m => shouldUpdateThrowing m) keys []
  | _, msg => shouldUpdateThrowing msg

/-- The updater `replacer`: `(update) => update`. -/
def replacer (update : JSVal) : JSVal := update

/-- The method `xs.slice(start)` of an array. -/
def slice (xs : List JSVal) (start : Int) : List JSVal :=
  let len : Int := xs.length
  let k : Int := if start < 0 then max (len + start) 0 else min start len
  xs.drop k.toNat

/-- The spread `...v` inside an array literal: the elements of an array, the
characters of a string, a TypeError for a value that is not iterable. -/
def spread : JSVal → Except JSError (List JSVal)
  | .arr items => .ok items
  | .str s => .ok (s.data.map fun c => .str (String.singleton c))
  | _ => .error .typeError

/-- The call `v.map(sample => mapper(sample))`: defined on arrays only (no other
modelled value has a `map` method). -/
def arrayMap (mapper : JSVal → JSVal) : JSVal → Except JSError (List JSVal)
  | .arr items => .ok (items.map mapper)
  | _ => .error .typeError

/-- The updater `appender(limit, mapper)`:
`(update, prev) => [...prev, ...update.map(sample => mapper(sample))].slice(-limit)`. -/
def appender (limit : Int) (mapper : JSVal → JSVal) (update prev : JSVal) :
    Except JSError JSVal :=
  match spread prev with
  | .error e => .error e
  | .ok old =>
    match arrayMap mapper update with
    | .error e => .error e
    | .ok fresh => .ok (.arr (slice (old ++ fresh) (-limit)))

/-- The constant `defaultContent`. -/
def defaultContent : JSVal :=
  .obj [
    ("general", .obj [("version", .null), ("commit", .null)]),
    ("home", .obj []),
    ("chain", .obj []),
    ("txpool", .obj []),
    ("network", .obj []),
    ("system", .obj [
      ("activeMemory", .arr []),
      ("virtualMemory", .arr []),
      ("networkIngress", .arr []),
      ("networkEgress", .arr []),
      ("processCPU", .arr []),
      ("systemCPU", .arr []),
      ("diskRead", .arr []),
      ("diskWrite", .arr [])]),
    ("logs", .obj [("log", .arr [])])]

/-- The `general` entry of `updaters`. -/
def generalUpdaters : Updater :=
  .obj fun key =>
    if key = "version" then .fn (fun update _ => .ok (replacer update))
    else if key = "commit" then .fn (fun update _ => .ok (replacer update))
    else .undefined

/-- The `system` entry of `updaters`. -/
def systemUpdaters : Updater :=
  .obj fun key =>
    if key = "activeMemory" then .fn (appender 200 replacer)
    else if key = "virtualMemory" then .fn (appender 200 replacer)
    else if key = "networkIngress" then .fn (appender 200 replacer)
    else if key = "networkEgress" then .fn (appender 200 replacer)
    else if key = "processCPU" then .fn (appender 200 replacer)
    else if key = "systemCPU" then .fn (appender 200 replacer)
    else if key = "diskRead" then .fn (appender 200 replacer)
    else if key = "diskWrite" then .fn (appender 200 replacer)
    else .undefined

/-- The `logs` entry of `updaters`. -/
def logsUpdaters : Updater :=
  .obj fun key => if key = "log" then .fn (appender 200 replacer) else .undefined

/-- The constant `updaters`. -/
def updaters : Updater :=
  .obj fun key =>
    if key = "general" then generalUpdaters
    else if key = "home" then .null
    else if key = "chain" then .null
    else if key = "txpool" then .null
    else if key = "network" then .null
    else if key = "system" then systemUpdaters
    else if key = "logs" then logsUpdaters
    else .undefined

/-! ## The component: state, websocket handlers, timers -/

/-- The falsy values, those for which `!msg` holds. -/
def falsy : JSVal → Bool
  | .undefined => true
  | .null => true
  | .bool b => !b
  | .num n => n == 0
  | .str s => s == ""
  | _ => false

/-- The component state (type `State` of Dashboard.jsx). -/
structure State where
  active : String
  sideBar : Bool
  content : JSVal
  shouldUpdate : JSVal

/-- What the handlers leave on the console: the `console.error` call of
`onmessage`, and exceptions that no handler caught. -/
inductive Diagnostic where
  | consoleError (msg : JSVal)
  | uncaught (e : JSError)

/-- The component with what it has asked of its environment: whether React still
has it mounted, the number of `WebSocket` objects created by `reconnect`, and the
delays in milliseconds of the pending `setTimeout(this.reconnect, ...)` calls,
oldest first. -/
structure World where
  state : State
  mounted : Bool
  sockets : Nat
  timers : List Nat
  console : List Diagnostic

/-- The state set by the constructor; `homeId` stands for `MENU.get('home').id`,
defined outside this file. -/
def initialState (homeId : String) : State :=
  { active := homeId, sideBar := true, content := defaultContent, shouldUpdate := .obj [] }

/-- The method `reconnect`: creates a socket and installs `onopen`, `onmessage` and
`onclose` on it. -/
def reconnect (w : World) : World :=
  { w with sockets := w.sockets + 1 }

/-- The component after the constructor and `componentDidMount`. -/
def mount (homeId : String) : World :=
  reconnect
    { state := initialState homeId, mounted := true, sockets := 0, timers := [],
      console := [] }

/-- The call `this.setState(updater)` made from a websocket handler.  On a mounted
component the updater is applied to the state; when it throws, no state is set,
React unmounts the tree and the exception is reported.  On an unmounted component
the call does nothing and the updater is not run. -/
def setState (updater : State → Except JSError State) (w : World) : World :=
  if w.mounted then
    match updater w.state with
    | .ok s => { w with state := s }
    | .error e => { w with mounted := false, console := w.console ++ [.uncaught e] }
  else w

/-- The handler `server.onopen`: `setState({content: defaultContent, shouldUpdate: {}})`. -/
def onopen (w : World) : World :=
  setState (fun s => .ok { s with content := defaultContent, shouldUpdate := .obj [] }) w

/-- The updater function passed to `setState` by the method `update`; `content` is
computed before `shouldUpdate`. -/
def update (msg : JSVal) (prevState : State) : Except JSError State :=
  match deepUpdate updaters msg prevState.content with
  | .error e => .error e
  | .ok content =>
    match shouldUpdate updaters msg with
    | .error e => .error e
    | .ok su => .ok { prevState with content := content, shouldUpdate := su }

/-- The handler `server.onmessage`; `parsed` is the outcome of
`JSON.parse(event.data)`, a value or a thrown SyntaxError, which leaves the
handler before any state is set. -/
def onmessage (parsed : Except JSError JSVal) (w : World) : World :=
  match parsed with
  | .error e => { w with console := w.console ++ [.uncaught e] }
  | .ok msg =>
    if falsy msg then { w with console := w.console ++ [.consoleError msg] }
    else setState (update msg) w

/-- The handler `server.onclose`: `setTimeout(this.reconnect, 3000)`. -/
def onclose (w : World) : World :=
  { w with timers := w.timers ++ [3000] }

/-- Events delivered to the component: the four websocket events and the expiry of
the oldest pending timer. -/
inductive Event where
  | onopen
  | onmessage (parsed : Except JSError JSVal)
  | onclose
  | onerror
  | timeout

/-- One event.  `reconnect` installs no `onerror` handler, so an error event runs
no code of the component; an expired timer calls `reconnect`. -/
def step (w : World) : Event → World
  | .onopen => onopen w
  | .onmessage parsed => onmessage parsed w
  | .onclose => onclose w
  | .onerror => w
  | .timeout =>
    match w.timers with
    | [] => w
    | _ :: rest => reconnect { w with timers := rest }

/-- A sequence of events, in order of arrival. -/
def run (w : World) (events : List Event) : World :=
  events.foldl step w

/-- Snapshots the component can hold: the content after some sequence of events. -/
def Reachable (S : JSVal) : Prop :=
  ∃ (homeId : String) (events : List Event), (run (mount homeId) events).state.content = S

/-! ## Shapes and paths -/

/-- Value of a computation that returned, `undefined` for one that threw. -/
def valueOf (f : String → Except JSError JSVal) (key : String) : JSVal :=
  match f key with
  | .ok v => v
  | .error _ => .undefined

/-- The assignments `o[key] = g(key)` for all `keys` in turn. -/
def assignAll (g : String → JSVal) :
    List String → List (String × JSVal) → List (String × JSVal)
  | [], acc => acc
  | key :: keys, acc => assignAll g keys (setField acc key (g key))

/-- The read `updater[key]` where it does not throw: the child of an updater
object, `undefined` otherwise. -/
def child : Updater → String → Updater
  | .obj get, key => get key
  | _, _ => .undefined

/-- The test `typeof updater === 'function'`. -/
def isFunction : Updater → Bool
  | .fn _ => true
  | _ => false

/-- The value found by reading the keys of `path` one after the other. -/
def valueAt : JSVal → List String → Except JSError JSVal
  | v, [] => .ok v
  | v, key :: path =>
    match getProp v key with
    | .error e => .error e
    | .ok w => valueAt w path

/-- The keys of the value at `path`. -/
def keysAt (v : JSVal) (path : List String) : Except JSError (List String) :=
  match valueAt v path with
  | .error e => .error e
  | .ok w => objectKeys w

/-- The updater found at `path`. -/
def policyAt : Updater → List String → Updater
  | updater, [] => updater
  | updater, key :: path => policyAt (child updater key) path

/-- Paths of the updater tree above its functions: neither `path` nor a prefix of
it is the path of a function. -/
def internalPath : Updater → List String → Bool
  | .fn _, _ => false
  | _, [] => true
  | updater, key :: path => internalPath (child updater key) path

/-- The snapshot mirrors the updater tree at every path above the functions: an
object with distinct keys, each known to the updater, under an updater object; the
empty object under `null`. -/
def mirrors : Updater → JSVal → Bool
  | .fn _, _ => true
  | .obj get, .obj fields =>
    decide (fields.map Prod.fst).Nodup && fields.all (fun kv => mirrors (get kv.1) kv.2)
  | .null, .obj [] => true
  | _, _ => false

/-- An update in which every leaf is absent: `undefined`, or an object whose
values are such updates; under a function only `undefined`, under `null` only
`undefined` and the empty object. -/
def leafless : Updater → JSVal → Bool
  | _, .undefined => true
  | .obj get, .obj fields => fields.all (fun kv => leafless (get kv.1) kv.2)
  | .null, .obj [] => true
  | _, _ => false

/-- The test `Array.isArray(v)`. -/
def isArray : JSVal → Bool
  | .arr _ => true
  | _ => false

/-- The value is an object and all its properties are arrays. -/
def allArrays : JSVal → Bool
  | .obj fields => fields.all (fun kv => isArray kv.2)
  | _ => false

/-- The snapshot mirrors `updaters`, and holds an array wherever `updaters` has
an `appender`. -/
def wellShaped (S : JSVal) : Bool :=
  mirrors updaters S &&
    (match getProp S "system", getProp S "logs" with
      | .ok system, .ok logs => allArrays system && allArrays logs
      | _, _ => false)

/-- The keys of the object `v` are among the keys of `s`, and `leaf` holds of its
values. -/
def fitsSection (leaf : JSVal → Bool) (v s : JSVal) : Bool :=
  match v, objectKeys s with
  | .obj fields, .ok keys => fields.all (fun kv => decide (kv.1 ∈ keys) && leaf kv.2)
  | _, _ => false

/-- The update is an object whose keys at each level are among the keys of the
snapshot at that level, with an array at every property of `system` and `logs`. -/
def fitsUpdate (U S : JSVal) : Bool :=
  match U, objectKeys S with
  | .obj fields, .ok keys =>
    fields.all (fun kv =>
      decide (kv.1 ∈ keys) &&
        (match getProp S kv.1 with
          | .ok s =>
            fitsSection (fun x => if kv.1 = "system" ∨ kv.1 = "logs" then isArray x else true)
              kv.2 s
          | .error _ => false))
  | _, _ => false

/-- The value `deepUpdate(updater[key], update[key], prev[key])` assigned to
`updated[key]` when the updater is an object with children `get`. -/
def mergeKey (get : String → Updater) (update prev : JSVal) (key : String) :
    Except JSError JSVal :=
  match getProp update key with
  | .error e => .error e
  | .ok u =>
    match getProp prev key with
    | .error e => .error e
    | .ok p => deepUpdate (get key) u p

/-- The value assigned to `su[key]` when the updater is an object with children
`get`. -/
def markKey (get : String → Updater) (msg : JSVal) (key : String) : Except JSError JSVal :=
  match get key with
  | .fn _ => .ok (.bool true)
  | _ =>
    match getProp msg key with
    | .error e => .error e
    | .ok m => shouldUpdate (get key) m

/-- A message whose sections are objects, with arrays as the values of `system`
and `logs`; the keys are arbitrary. -/
def objectUpdate : JSVal → Bool
  | .obj fields =>
    fields.all (fun kv =>
      match kv.2 with
      | .obj values =>
        if kv.1 = "system" ∨ kv.1 = "logs" then values.all (fun jx => isArray jx.2) else true
      | _ => false)
  | _ => false

/-- The marker tree as guard of rendering: every top-level key without entry in
the new marker tree has its previous content. -/
def soundGuard (before after : State) : Prop :=
  ∀ key, getProp after.shouldUpdate key = .ok .undefined →
    getProp after.content key = getProp before.content key

/-- The frame `{"system":{"processCPU":[{"value":10}]}}`. -/
def cpuFrame : JSVal :=
  .obj [("system", .obj [("processCPU", .arr [.obj [("value", .num 10)]])])]

/-- The frame `{"general":{"version":"v1.8.0"}}`. -/
def versionFrame : JSVal :=
  .obj [("general", .obj [("version", .str "v1.8.0")])]

/-- The frame `{"home":{"peers":3}}`: data under a section whose entry in `updaters`
is `null`. -/
def homeFrame : JSVal :=
  .obj [("home", .obj [("peers", .num 3)])]

/-- The frame `{"general":null}`. -/
def nullFrame : JSVal :=
  .obj [("general", .null)]

/-- The default snapshot after the frame `{"system":{"processCPU":[{"value":10}]}}`. -/
def cpuContent : JSVal :=
  .obj [
    ("general", .obj [("version", .null), ("commit", .null)]),
    ("home", .obj []),
    ("chain", .obj []),
    ("txpool", .obj []),
    ("network", .obj []),
    ("system", .obj [
      ("activeMemory", .arr []),
      ("virtualMemory", .arr []),
      ("networkIngress", .arr []),
      ("networkEgress", .arr []),
      ("processCPU", .arr [.obj [("value", .num 10)]]),
      ("systemCPU", .arr []),
      ("diskRead", .arr []),
      ("diskWrite", .arr [])]),
    ("logs", .obj [("log", .arr [])])]

/-- A frame with keys the snapshot does not have:
`{"system":{"processCPU":[1],"bogus":[]},"home":{"peers":3},"extra":{}}`. -/
def foreignFrame : JSVal :=
  .obj [("system", .obj [("processCPU", .arr [.num 1]), ("bogus", .arr [])]),
    ("home", .obj [("peers", .num 3)]),
    ("extra", .obj [])]

/-! ## Arrays -/

theorem slice_neg (xs : List JSVal) (limit : Int) (hlimit : 0 < limit) :
    slice xs (-limit) = xs.drop (xs.length - limit.toNat) := by
  unfold slice
  have hneg : -limit < 0 := by omega
  simp only [hneg, if_true]
  congr 1
  omega

/-! ## Building an object key by key -/

theorem setField_keys (acc : List (String × JSVal)) (key : String) (v : JSVal) :
    (setField acc key v).map Prod.fst =
      if key ∈ acc.map Prod.fst then acc.map Prod.fst else acc.map Prod.fst ++ [key] := by
  induction acc with
  | nil => simp [setField]
  | cons kw rest ih =>
    obtain ⟨k, w⟩ := kw
    by_cases hk : k = key
    · subst hk
      simp [setField]
    · have hne : ¬ key = k := fun h => hk h.symm
      simp only [setField, hk, if_false, List.map_cons, ih, List.mem_cons, hne, false_or]
      split <;> simp

theorem setField_fresh (acc : List (String × JSVal)) (key : String) (v : JSVal)
    (h : key ∉ acc.map Prod.fst) : setField acc key v = acc ++ [(key, v)] := by
  induction acc with
  | nil => simp [setField]
  | cons kw rest ih =>
    obtain ⟨k, w⟩ := kw
    simp only [List.map_cons, List.mem_cons, not_or] at h
    have hk : ¬ k = key := fun e => h.1 e.symm
    simp [setField, hk, ih h.2]

theorem lookup_cons_if (k k0 : String) (w : JSVal) (rest : List (String × JSVal)) :
    List.lookup k ((k0, w) :: rest) = if k = k0 then some w else List.lookup k rest := by
  by_cases h : k = k0
  · subst h; simp [List.lookup]
  · have hb : (k == k0) = false := by simpa using h
    simp [List.lookup, hb, h]

theorem lookup_setField (acc : List (String × JSVal)) (key : String) (v : JSVal) (k : String) :
    (setField acc key v).lookup k = if k = key then some v else acc.lookup k := by
  induction acc with
  | nil => simp [setField, lookup_cons_if]
  | cons kw rest ih =>
    obtain ⟨k0, w⟩ := kw
    by_cases h0 : k0 = key
    · subst h0
      simp only [setField, if_true, lookup_cons_if]
      split <;> rfl
    · simp only [setField, h0, if_false, lookup_cons_if, ih]
      by_cases hk : k = k0
      · subst hk; simp [h0]
      · simp [hk]

theorem buildObject_ok_iff (f : String → Except JSError JSVal) (keys : List String)
    (acc : List (String × JSVal)) (R : JSVal) :
    buildObject f keys acc = .ok R ↔
      (∀ k ∈ keys, ∃ v, f k = .ok v) ∧ R = .obj (assignAll (valueOf f) keys acc) := by
  induction keys generalizing acc with
  | nil =>
    simp only [buildObject, assignAll, List.not_mem_nil, false_implies, implies_true, true_and]
    constructor
    · intro h; injection h with h; exact h.symm
    · intro h; rw [h]
  | cons key keys ih =>
    cases hf : f key with
    | error e =>
      simp only [buildObject, hf]
      constructor
      · intro h; cases h
      · intro h
        obtain ⟨v, hv⟩ := h.1 key (List.mem_cons_self _ _)
        rw [hf] at hv; cases hv
    | ok v =>
      have hval : valueOf f key = v := by simp [valueOf, hf]
      simp only [buildObject, hf, assignAll, hval, ih, List.mem_cons, forall_eq_or_imp]
      constructor
      · rintro ⟨h1, h2⟩; exact ⟨⟨⟨v, rfl⟩, h1⟩, h2⟩
      · rintro ⟨⟨_, h1⟩, h2⟩; exact ⟨h1, h2⟩

theorem assignAll_lookup (g : String → JSVal) (keys : List String)
    (acc : List (String × JSVal)) (k : String) :
    (assignAll g keys acc).lookup k = if k ∈ keys then some (g k) else acc.lookup k := by
  induction keys generalizing acc with
  | nil => simp [assignAll]
  | cons key keys ih =>
    simp only [assignAll, ih, lookup_setField, List.mem_cons]
    by_cases h1 : k ∈ keys
    · simp [h1]
    · by_cases h2 : k = key
      · subst h2; simp [h1]
      · simp [h1, h2]

theorem assignAll_mem_keys (g : String → JSVal) (keys : List String)
    (acc : List (String × JSVal)) (k : String) :
    k ∈ (assignAll g keys acc).map Prod.fst ↔ k ∈ acc.map Prod.fst ∨ k ∈ keys := by
  induction keys generalizing acc with
  | nil => simp [assignAll]
  | cons key keys ih =>
    simp only [assignAll, ih, setField_keys, List.mem_cons]
    split
    · rename_i hin
      constructor
      · rintro (h | h)
        · exact Or.inl h
        · exact Or.inr (Or.inr h)
      · rintro (h | h | h)
        · exact Or.inl h
        · subst h; exact Or.inl hin
        · exact Or.inr h
    · simp only [List.mem_append, List.mem_singleton]
      tauto

theorem assignAll_nodup (g : String → JSVal) (keys : List String)
    (acc : List (String × JSVal)) (hnd : keys.Nodup)
    (hfresh : ∀ k ∈ keys, k ∉ acc.map Prod.fst) :
    assignAll g keys acc = acc ++ keys.map (fun k => (k, g k)) := by
  induction keys generalizing acc with
  | nil => simp [assignAll]
  | cons key keys ih =>
    have hkey : key ∉ acc.map Prod.fst := hfresh key (List.mem_cons_self _ _)
    rw [List.nodup_cons] at hnd
    simp only [assignAll, setField_fresh acc key (g key) hkey]
    rw [ih _ hnd.2]
    · simp
    · intro k hk
      simp only [List.map_append, List.map_cons, List.map_nil, List.mem_append, List.mem_singleton,
        not_or]
      refine ⟨hfresh k (List.mem_cons_of_mem _ hk), ?_⟩
      rintro rfl
      exact hnd.1 hk

/-! ## One level of `deepUpdate` and `shouldUpdate` -/

theorem deepUpdate_undefined (updater : Updater) (prev : JSVal) :
    deepUpdate updater .undefined prev = .ok prev := by
  cases updater <;> rfl

theorem deepUpdate_obj (get : String → Updater) (update prev : JSVal)
    (hU : update ≠ .undefined) :
    deepUpdate (.obj get) update prev =
      match objectKeys prev with
      | .error e => .error e
      | .ok keys => buildObject (mergeKey get update prev) keys [] := by
  rw [deepUpdate.eq_3 _ _ _ hU]
  rfl

theorem deepUpdate_fn (f : JSVal → JSVal → Except JSError JSVal) (update prev : JSVal)
    (hU : update ≠ .undefined) : deepUpdate (.fn f) update prev = f update prev := by
  cases update <;> first | exact absurd rfl hU | rfl

theorem deepUpdate_null (update prev : JSVal) (hU : update ≠ .undefined) :
    deepUpdate .null update prev =
      match objectKeys prev with
      | .error e => .error e
      | .ok keys => buildObject (fun _ => .error .typeError) keys [] := by
  cases update <;> first | exact absurd rfl hU | rfl

theorem deepUpdate_undefined_updater (update prev : JSVal) (hU : update ≠ .undefined) :
    deepUpdate .undefined update prev =
      match objectKeys prev with
      | .error e => .error e
      | .ok keys => buildObject (fun _ => .error .typeError) keys [] := by
  cases update <;> first | exact absurd rfl hU | rfl

theorem shouldUpdate_obj (get : String → Updater) (msg : JSVal) :
    shouldUpdate (.obj get) msg =
      match objectKeys msg with
      | .error e => .error e
      | .ok keys => buildObject (markKey get msg) keys [] := by
  rw [shouldUpdate.eq_1]
  rfl

theorem getProp_of_objectKeys (v : JSVal) (keys : List String) (key : String)
    (h : objectKeys v = .ok keys) : ∃ p, getProp v key = .ok p := by
  cases v with
  | undefined => cases h
  | null => cases h
  | bool b => exact ⟨_, rfl⟩
  | num n => exact ⟨_, rfl⟩
  | str s =>
    simp only [getProp]
    split <;> exact ⟨_, rfl⟩
  | arr items =>
    simp only [getProp]
    split <;> exact ⟨_, rfl⟩
  | obj fields => exact ⟨_, rfl⟩

theorem getProp_obj (fields : List (String × JSVal)) (key : String) :
    getProp (.obj fields) key = .ok ((fields.lookup key).getD .undefined) := rfl

theorem lookup_mem (fields : List (String × JSVal)) (key : String) (v : JSVal)
    (h : fields.lookup key = some v) : (key, v) ∈ fields := by
  induction fields with
  | nil => simp at h
  | cons kw rest ih =>
    obtain ⟨k, w⟩ := kw
    rw [lookup_cons_if] at h
    split at h
    · rename_i hk
      injection h with h
      subst hk; subst h
      exact List.mem_cons_self _ _
    · exact List.mem_cons_of_mem _ (ih h)

theorem lookup_of_mem_nodup (fields : List (String × JSVal)) (key : String) (v : JSVal)
    (hnd : (fields.map Prod.fst).Nodup) (h : (key, v) ∈ fields) :
    fields.lookup key = some v := by
  induction fields with
  | nil => simp at h
  | cons kw rest ih =>
    obtain ⟨k, w⟩ := kw
    simp only [List.map_cons, List.nodup_cons] at hnd
    rw [lookup_cons_if]
    rcases List.mem_cons.mp h with hhead | htail
    · injection hhead with h1 h2
      subst h1; subst h2
      simp
    · have hne : key ≠ k := by
        intro e
        exact hnd.1 (List.mem_map.mpr ⟨(key, v), htail, e⟩)
      simp only [hne, if_false]
      exact ih hnd.2 htail

theorem lookup_none_of_not_mem (fields : List (String × JSVal)) (key : String)
    (h : key ∉ fields.map Prod.fst) : fields.lookup key = none := by
  induction fields with
  | nil => rfl
  | cons kw rest ih =>
    obtain ⟨k, w⟩ := kw
    simp only [List.map_cons, List.mem_cons, not_or] at h
    rw [lookup_cons_if]
    simp only [h.1, if_false]
    exact ih h.2

theorem map_lookup_self (fields : List (String × JSVal))
    (hnd : (fields.map Prod.fst).Nodup) (g : String → JSVal)
    (hg : ∀ k v, (k, v) ∈ fields → g k = v) :
    (fields.map Prod.fst).map (fun k => (k, g k)) = fields := by
  induction fields with
  | nil => rfl
  | cons kw rest ih =>
    obtain ⟨k, w⟩ := kw
    simp only [List.map_cons, List.nodup_cons] at hnd
    simp only [List.map_cons]
    rw [hg k w (List.mem_cons_self _ _)]
    congr 1
    exact ih hnd.2 (fun k v h => hg k v (List.mem_cons_of_mem _ h))

theorem getProp_assignAll (g : String → JSVal) (keys : List String) (key : String) :
    getProp (.obj (assignAll g keys [])) key =
      .ok (if key ∈ keys then g key else .undefined) := by
  rw [getProp_obj, assignAll_lookup]
  split <;> rfl

theorem assignAll_nil_nodup (g : String → JSVal) (keys : List String) (hnd : keys.Nodup) :
    assignAll g keys [] = keys.map (fun k => (k, g k)) := by
  rw [assignAll_nodup g keys [] hnd (fun _ _ => by simp)]
  simp

theorem deepUpdate_obj_ok_iff (get : String → Updater) (update prev R : JSVal)
    (hU : update ≠ .undefined) :
    deepUpdate (.obj get) update prev = .ok R ↔
      ∃ keys, objectKeys prev = .ok keys ∧
        (∀ k ∈ keys, ∃ v, mergeKey get update prev k = .ok v) ∧
        R = .obj (assignAll (valueOf (mergeKey get update prev)) keys []) := by
  rw [deepUpdate_obj get update prev hU]
  cases hk : objectKeys prev with
  | error e =>
    constructor
    · intro h; cases h
    · rintro ⟨keys, h, _⟩; cases h
  | ok keys =>
    simp only [buildObject_ok_iff]
    constructor
    · intro h; exact ⟨keys, rfl, h⟩
    · rintro ⟨keys2, h, h2⟩
      injection h with h
      subst h
      exact h2

theorem throwing_ok_iff (keys : List String) (R : JSVal) :
    buildObject (fun _ => .error .typeError) keys [] = .ok R ↔ keys = [] ∧ R = .obj [] := by
  rw [buildObject_ok_iff]
  constructor
  · rintro ⟨h1, h2⟩
    cases keys with
    | nil => exact ⟨rfl, h2⟩
    | cons k ks =>
      obtain ⟨v, hv⟩ := h1 k (List.mem_cons_self _ _)
      cases hv
  · rintro ⟨rfl, rfl⟩
    exact ⟨fun k hk => absurd hk (List.not_mem_nil k), rfl⟩

theorem mergeKey_absent (get : String → Updater) (update prev : JSVal) (keys : List String)
    (key : String) (hkeys : objectKeys prev = .ok keys)
    (habsent : getProp update key = .ok .undefined) :
    mergeKey get update prev key = getProp prev key := by
  obtain ⟨p, hp⟩ := getProp_of_objectKeys prev keys key hkeys
  simp only [mergeKey, habsent, hp, deepUpdate_undefined]

theorem valueOf_ok (f : String → Except JSError JSVal) (key : String) (v : JSVal)
    (h : f key = .ok v) : valueOf f key = v := by
  simp [valueOf, h]

/-- Frame property of one level of `deepUpdate`, for any updater that is not a
function. -/
theorem deepUpdate_keeps_unaddressed (updater : Updater) (update prev R : JSVal)
    (keys : List String) (key : String)
    (hfn : isFunction updater = false) (hU : update ≠ .undefined)
    (hkeys : objectKeys prev = .ok keys) (hkey : key ∈ keys)
    (habsent : getProp update key = .ok .undefined)
    (h : deepUpdate updater update prev = .ok R) :
    getProp R key = getProp prev key := by
  cases updater with
  | fn f => simp [isFunction] at hfn
  | obj get =>
    rw [deepUpdate_obj_ok_iff get update prev R hU] at h
    obtain ⟨keys2, hk2, hall, hR⟩ := h
    rw [hkeys] at hk2
    injection hk2 with hk2
    subst hk2
    obtain ⟨p, hp⟩ := getProp_of_objectKeys prev keys key hkeys
    have hm : mergeKey get update prev key = .ok p := by
      rw [mergeKey_absent get update prev keys key hkeys habsent, hp]
    rw [hR, getProp_assignAll, if_pos hkey, valueOf_ok _ _ _ hm, hp]
  | null =>
    rw [deepUpdate_null update prev hU, hkeys] at h
    have := (throwing_ok_iff keys R).mp h
    rw [this.1] at hkey
    exact absurd hkey (List.not_mem_nil _)
  | undefined =>
    rw [deepUpdate_undefined_updater update prev hU, hkeys] at h
    have := (throwing_ok_iff keys R).mp h
    rw [this.1] at hkey
    exact absurd hkey (List.not_mem_nil _)

/-! ## Shape preservation -/

theorem mirrors_obj_inv (get : String → Updater) (S : JSVal)
    (h : mirrors (.obj get) S = true) :
    ∃ fields, S = .obj fields ∧ (fields.map Prod.fst).Nodup ∧
      ∀ k v, (k, v) ∈ fields → mirrors (get k) v = true := by
  cases S with
  | obj fields =>
    simp only [mirrors, Bool.and_eq_true, decide_eq_true_eq, List.all_eq_true] at h
    exact ⟨fields, rfl, h.1, fun k v hkv => h.2 (k, v) hkv⟩
  | _ => simp [mirrors] at h

theorem mirrors_null_inv (S : JSVal) (h : mirrors .null S = true) : S = .obj [] := by
  cases S with
  | obj fields =>
    cases fields with
    | nil => rfl
    | cons kv rest => simp [mirrors] at h
  | _ => simp [mirrors] at h

theorem mergeKey_of_mem (get : String → Updater) (update : JSVal)
    (fields : List (String × JSVal)) (hnd : (fields.map Prod.fst).Nodup)
    (k : String) (v : JSVal) (hkv : (k, v) ∈ fields) :
    mergeKey get update (.obj fields) k =
      match getProp update k with
      | .error e => .error e
      | .ok u => deepUpdate (get k) u v := by
  simp only [mergeKey, getProp_obj, lookup_of_mem_nodup fields k v hnd hkv, Option.getD_some]

theorem map_fst_pairs (g : String → JSVal) (keys : List String) :
    (keys.map (fun k => (k, g k))).map Prod.fst = keys := by
  induction keys with
  | nil => rfl
  | cons k ks ih => simp only [List.map_cons, ih]

theorem keysAt_cons (v : JSVal) (key : String) (path : List String) :
    keysAt v (key :: path) =
      match getProp v key with
      | .error e => .error e
      | .ok w => keysAt w path := by
  simp only [keysAt, valueAt]
  cases getProp v key <;> rfl

/-- A result of `deepUpdate` mirrors the updater tree as the previous value did,
with the same keys at every path above the functions. -/
theorem deepUpdate_mirrors (updater : Updater) :
    ∀ (S U R : JSVal), mirrors updater S = true → deepUpdate updater U S = .ok R →
      mirrors updater R = true ∧
        ∀ path, internalPath updater path = true → keysAt R path = keysAt S path := by
  induction updater with
  | fn f =>
    intro S U R _ _
    exact ⟨rfl, fun path hp => by cases path <;> simp [internalPath] at hp⟩
  | null =>
    intro S U R hS h
    have hS2 := mirrors_null_inv S hS
    subst hS2
    by_cases hU : U = .undefined
    · subst hU
      rw [deepUpdate_undefined] at h
      injection h with h
      subst h
      exact ⟨rfl, fun _ _ => rfl⟩
    · rw [deepUpdate_null U _ hU] at h
      have h2 := (throwing_ok_iff _ R).mp h
      rw [h2.2]
      exact ⟨rfl, fun _ _ => rfl⟩
  | undefined =>
    intro S U R hS _
    cases S <;> simp [mirrors] at hS
  | obj get ih =>
    intro S U R hS h
    by_cases hU : U = .undefined
    · subst hU
      rw [deepUpdate_undefined] at h
      injection h with h
      subst h
      exact ⟨hS, fun _ _ => rfl⟩
    · obtain ⟨fields, rfl, hnd, hall⟩ := mirrors_obj_inv get S hS
      rw [deepUpdate_obj_ok_iff get U _ R hU] at h
      obtain ⟨keys, hkeys, hok, hR⟩ := h
      simp only [objectKeys] at hkeys
      injection hkeys with hkeys
      subst hkeys
      rw [assignAll_nil_nodup _ _ hnd] at hR
      -- every key of the snapshot was merged with a result that mirrors its updater
      have hstep : ∀ k v, (k, v) ∈ fields →
          ∃ u, deepUpdate (get k) u v
            = .ok (valueOf (mergeKey get U (.obj fields)) k) := by
        intro k v hkv
        obtain ⟨r, hr⟩ := hok k (List.mem_map.mpr ⟨(k, v), hkv, rfl⟩)
        rw [valueOf_ok _ _ _ hr]
        rw [mergeKey_of_mem get U fields hnd k v hkv] at hr
        cases hu : getProp U k with
        | error e => rw [hu] at hr; cases hr
        | ok u => rw [hu] at hr; exact ⟨u, hr⟩
      subst hR
      constructor
      · simp only [mirrors, Bool.and_eq_true, decide_eq_true_eq, List.all_eq_true]
        refine ⟨?_, ?_⟩
        · rw [map_fst_pairs]
          exact hnd
        · intro kr hkr
          obtain ⟨k, hk, rfl⟩ := List.mem_map.mp hkr
          obtain ⟨kv, hkv, rfl⟩ := List.mem_map.mp hk
          obtain ⟨u, hu⟩ := hstep kv.1 kv.2 hkv
          exact (ih kv.1 kv.2 u _ (hall kv.1 kv.2 hkv) hu).1
      · intro path hp
        cases path with
        | nil =>
          simp only [keysAt, valueAt, objectKeys, map_fst_pairs]
        | cons key path =>
          simp only [internalPath, child] at hp
          rw [keysAt_cons, keysAt_cons, ← assignAll_nil_nodup _ _ hnd, getProp_assignAll,
            getProp_obj]
          by_cases hkey : key ∈ fields.map Prod.fst
          · obtain ⟨kv, hkv, rfl⟩ := List.mem_map.mp hkey
            obtain ⟨u, hu⟩ := hstep kv.1 kv.2 hkv
            rw [if_pos hkey, lookup_of_mem_nodup fields kv.1 kv.2 hnd hkv]
            exact (ih kv.1 kv.2 u _ (hall kv.1 kv.2 hkv) hu).2 path hp
          · rw [if_neg hkey, lookup_none_of_not_mem fields key hkey]
            rfl

/-! ## Updates without leaves -/

theorem leafless_lookup (get : String → Updater) (fields : List (String × JSVal))
    (h : leafless (.obj get) (.obj fields) = true) (k : String) :
    leafless (get k) ((fields.lookup k).getD .undefined) = true := by
  simp only [leafless, List.all_eq_true] at h
  cases hl : fields.lookup k with
  | none => cases get k <;> rfl
  | some u => exact h (k, u) (lookup_mem fields k u hl)

/-- An update without leaves gives back the previous value, whatever the updater
tree. -/
theorem deepUpdate_leafless (updater : Updater) :
    ∀ (S U : JSVal), mirrors updater S = true → leafless updater U = true →
      deepUpdate updater U S = .ok S := by
  induction updater with
  | fn f =>
    intro S U _ hU
    cases U <;> first | rfl | simp [leafless] at hU
  | null =>
    intro S U hS hU
    have hS2 := mirrors_null_inv S hS
    subst hS2
    cases U with
    | undefined => rfl
    | obj fields =>
      cases fields with
      | nil => rfl
      | cons kv rest => simp [leafless] at hU
    | _ => simp [leafless] at hU
  | undefined =>
    intro S U hS _
    cases S <;> simp [mirrors] at hS
  | obj get ih =>
    intro S U hS hU
    cases U with
    | undefined => rfl
    | obj us =>
      obtain ⟨fields, rfl, hnd, hall⟩ := mirrors_obj_inv get S hS
      have hne : JSVal.obj us ≠ .undefined := by intro h; cases h
      have hstep : ∀ k v, (k, v) ∈ fields →
          mergeKey get (.obj us) (.obj fields) k = .ok v := by
        intro k v hkv
        rw [mergeKey_of_mem get _ fields hnd k v hkv, getProp_obj]
        exact ih k v _ (hall k v hkv) (leafless_lookup get us hU k)
      rw [deepUpdate_obj_ok_iff get _ _ _ hne]
      refine ⟨fields.map Prod.fst, rfl, ?_, ?_⟩
      · intro k hk
        obtain ⟨kv, hkv, rfl⟩ := List.mem_map.mp hk
        exact ⟨kv.2, hstep kv.1 kv.2 hkv⟩
      · rw [assignAll_nil_nodup _ _ hnd, map_lookup_self fields hnd]
        intro k v hkv
        exact valueOf_ok _ _ _ (hstep k v hkv)
    | _ => simp [leafless] at hU

/-! ## The marker tree -/

theorem shouldUpdateThrowing_ok_iff (msg M : JSVal) :
    shouldUpdateThrowing msg = .ok M ↔ objectKeys msg = .ok [] ∧ M = .obj [] := by
  unfold shouldUpdateThrowing
  cases hk : objectKeys msg with
  | error e =>
    constructor
    · intro h; cases h
    · rintro ⟨h, _⟩; cases h
  | ok keys =>
    simp only [throwing_ok_iff]
    constructor
    · rintro ⟨rfl, rfl⟩; exact ⟨rfl, rfl⟩
    · rintro ⟨h, rfl⟩
      injection h with h
      exact ⟨h, rfl⟩

theorem shouldUpdate_obj_ok_iff (get : String → Updater) (msg M : JSVal) :
    shouldUpdate (.obj get) msg = .ok M ↔
      ∃ keys, objectKeys msg = .ok keys ∧
        (∀ k ∈ keys, ∃ v, markKey get msg k = .ok v) ∧
        M = .obj (assignAll (valueOf (markKey get msg)) keys []) := by
  rw [shouldUpdate_obj]
  cases hk : objectKeys msg with
  | error e =>
    constructor
    · intro h; cases h
    · rintro ⟨keys, h, _⟩; cases h
  | ok keys =>
    simp only [buildObject_ok_iff]
    constructor
    · intro h; exact ⟨keys, rfl, h⟩
    · rintro ⟨keys2, h, h2⟩
      injection h with h
      subst h
      exact h2

/-! ## The registry `updaters` and well-shaped snapshots -/

theorem appender_isArray (limit : Int) (mapper : JSVal → JSVal) (u p r : JSVal)
    (h : appender limit mapper u p = .ok r) : isArray r = true := by
  unfold appender at h
  cases hs : spread p with
  | error e => rw [hs] at h; cases h
  | ok old =>
    rw [hs] at h
    cases hm : arrayMap mapper u with
    | error e => rw [hm] at h; cases h
    | ok fresh =>
      rw [hm] at h
      injection h with h
      subst h
      rfl

theorem appender_total (limit : Int) (mapper : JSVal → JSVal) (u p : JSVal)
    (hu : isArray u = true) (hp : isArray p = true) :
    ∃ r, appender limit mapper u p = .ok r := by
  cases u with
  | arr a =>
    cases p with
    | arr b => exact ⟨_, rfl⟩
    | _ => simp [isArray] at hp
  | _ => simp [isArray] at hu

theorem allArrays_inv (v : JSVal) (h : allArrays v = true) :
    ∃ fields, v = .obj fields ∧ ∀ k x, (k, x) ∈ fields → isArray x = true := by
  cases v with
  | obj fields =>
    simp only [allArrays, List.all_eq_true] at h
    exact ⟨fields, rfl, fun k x hkx => h (k, x) hkx⟩
  | _ => simp [allArrays] at h

theorem mirrors_undefined (v : JSVal) : mirrors .undefined v = false := by
  cases v <;> rfl

/-- A section whose updaters are all functions that return arrays keeps holding
arrays only. -/
theorem section_keeps_arrays (get : String → Updater)
    (hleaf : ∀ j, get j = .undefined ∨
      ∃ f, get j = .fn f ∧ ∀ u p r, f u p = .ok r → isArray r = true)
    (v u r : JSVal) (hm : mirrors (.obj get) v = true) (hv : allArrays v = true)
    (h : deepUpdate (.obj get) u v = .ok r) : allArrays r = true := by
  by_cases hu : u = .undefined
  · subst hu
    rw [deepUpdate_undefined] at h
    injection h with h
    subst h
    exact hv
  · obtain ⟨fields, rfl, hnd, hall⟩ := mirrors_obj_inv get v hm
    obtain ⟨fields2, hf2, harr⟩ := allArrays_inv _ hv
    injection hf2 with hf2
    subst hf2
    rw [deepUpdate_obj_ok_iff get u _ r hu] at h
    obtain ⟨keys, hkeys, hok, hR⟩ := h
    simp only [objectKeys] at hkeys
    injection hkeys with hkeys
    subst hkeys
    rw [assignAll_nil_nodup _ _ hnd] at hR
    subst hR
    simp only [allArrays, List.all_eq_true]
    intro jr hjr
    obtain ⟨j, hj, rfl⟩ := List.mem_map.mp hjr
    obtain ⟨jx, hjx, rfl⟩ := List.mem_map.mp hj
    obtain ⟨w, hw⟩ := hok jx.1 (List.mem_map.mpr ⟨jx, hjx, rfl⟩)
    rw [valueOf_ok _ _ _ hw]
    rw [mergeKey_of_mem get u fields hnd jx.1 jx.2 hjx] at hw
    cases hg : getProp u jx.1 with
    | error e => rw [hg] at hw; cases hw
    | ok uj =>
      rw [hg] at hw
      simp only [] at hw
      by_cases huj : uj = .undefined
      · subst huj
        rw [deepUpdate_undefined] at hw
        injection hw with hw
        subst hw
        exact harr jx.1 jx.2 hjx
      · rcases hleaf jx.1 with hl | ⟨f, hl, hf⟩
        · have := hall jx.1 jx.2 hjx
          rw [hl, mirrors_undefined] at this
          cases this
        · rw [hl, deepUpdate_fn f uj jx.2 huj] at hw
          exact hf _ _ _ hw

/-- A section whose updaters are all functions merges without an exception when
its functions accept the values offered. -/
theorem section_total (get : String → Updater) (okU okP : JSVal → Prop)
    (hleaf : ∀ j, get j = .undefined ∨
      ∃ f, get j = .fn f ∧ ∀ u p, okU u → okP p → ∃ r, f u p = .ok r)
    (v : JSVal) (us : List (String × JSVal)) (hm : mirrors (.obj get) v = true)
    (hP : ∀ fields, v = .obj fields → ∀ j p, (j, p) ∈ fields → okP p)
    (hU : ∀ j x, (j, x) ∈ us → okU x) :
    ∃ r, deepUpdate (.obj get) (.obj us) v = .ok r := by
  obtain ⟨fields, rfl, hnd, hall⟩ := mirrors_obj_inv get v hm
  have hne : JSVal.obj us ≠ .undefined := by intro h; cases h
  refine ⟨_, (deepUpdate_obj_ok_iff get _ _ _ hne).mpr ⟨fields.map Prod.fst, rfl, ?_, rfl⟩⟩
  intro j hj
  obtain ⟨jp, hjp, rfl⟩ := List.mem_map.mp hj
  rw [mergeKey_of_mem get _ fields hnd jp.1 jp.2 hjp, getProp_obj]
  simp only []
  cases hl : us.lookup jp.1 with
  | none => exact ⟨jp.2, deepUpdate_undefined _ _⟩
  | some x =>
    simp only [Option.getD_some]
    by_cases hx : x = .undefined
    · subst hx
      exact ⟨jp.2, deepUpdate_undefined _ _⟩
    · rcases hleaf jp.1 with hg | ⟨f, hg, hf⟩
      · have := hall jp.1 jp.2 hjp
        rw [hg, mirrors_undefined] at this
        cases this
      · rw [hg, deepUpdate_fn f x jp.2 hx]
        exact hf x jp.2 (hU jp.1 x (lookup_mem us jp.1 x hl)) (hP fields rfl jp.1 jp.2 hjp)

/-- A section whose updaters are all functions has a marker tree for any message
whose keys are keys of the snapshot. -/
theorem section_mark_total (get : String → Updater)
    (hleaf : ∀ j, get j = .undefined ∨ ∃ f, get j = .fn f)
    (fields us : List (String × JSVal)) (hm : mirrors (.obj get) (.obj fields) = true)
    (hsub : ∀ j x, (j, x) ∈ us → j ∈ fields.map Prod.fst) :
    ∃ M, shouldUpdate (.obj get) (.obj us) = .ok M := by
  obtain ⟨fields2, hf2, hnd, hall⟩ := mirrors_obj_inv get _ hm
  injection hf2 with hf2
  subst hf2
  refine ⟨_, (shouldUpdate_obj_ok_iff get _ _).mpr ⟨us.map Prod.fst, rfl, ?_, rfl⟩⟩
  intro j hj
  obtain ⟨jx, hjx, rfl⟩ := List.mem_map.mp hj
  obtain ⟨jp, hjp, hjeq⟩ := List.mem_map.mp (hsub jx.1 jx.2 hjx)
  rcases hleaf jx.1 with hg | ⟨f, hg⟩
  · have := hall jp.1 jp.2 hjp
    rw [hjeq, hg, mirrors_undefined] at this
    cases this
  · exact ⟨.bool true, by simp only [markKey, hg]⟩

theorem generalUpdaters_leaf (j : String) :
    child generalUpdaters j = .undefined ∨
      ∃ f, child generalUpdaters j = .fn f ∧ ∀ u p : JSVal, ∃ r, f u p = .ok r := by
  simp only [generalUpdaters, child]
  split_ifs
  · exact Or.inr ⟨_, rfl, fun u _ => ⟨_, rfl⟩⟩
  · exact Or.inr ⟨_, rfl, fun u _ => ⟨_, rfl⟩⟩
  · exact Or.inl rfl

theorem systemUpdaters_leaf (j : String) :
    child systemUpdaters j = .undefined ∨
      child systemUpdaters j = .fn (appender 200 replacer) := by
  simp only [systemUpdaters, child]
  split_ifs <;> first | exact Or.inr rfl | exact Or.inl rfl

theorem logsUpdaters_leaf (j : String) :
    child logsUpdaters j = .undefined ∨
      child logsUpdaters j = .fn (appender 200 replacer) := by
  simp only [logsUpdaters, child]
  split_ifs <;> first | exact Or.inr rfl | exact Or.inl rfl

theorem updaters_child (k : String) :
    (k = "general" ∧ child updaters k = generalUpdaters) ∨
      (k = "system" ∧ child updaters k = systemUpdaters) ∨
      (k = "logs" ∧ child updaters k = logsUpdaters) ∨
      (k ≠ "system" ∧ k ≠ "logs" ∧
        (child updaters k = .null ∨ child updaters k = .undefined)) := by
  simp only [updaters, child]
  by_cases h1 : k = "general"
  · exact Or.inl ⟨h1, by simp [h1]⟩
  by_cases h6 : k = "system"
  · subst h6
    exact Or.inr (Or.inl ⟨rfl, rfl⟩)
  by_cases h7 : k = "logs"
  · subst h7
    exact Or.inr (Or.inr (Or.inl ⟨rfl, rfl⟩))
  refine Or.inr (Or.inr (Or.inr ⟨h6, h7, ?_⟩))
  simp only [h1, h6, h7, if_false]
  split_ifs <;> first | exact Or.inl rfl | exact Or.inr rfl

theorem updaters_eq : updaters = .obj (child updaters) := rfl

theorem generalUpdaters_eq : generalUpdaters = .obj (child generalUpdaters) := rfl

theorem systemUpdaters_eq : systemUpdaters = .obj (child systemUpdaters) := rfl

theorem logsUpdaters_eq : logsUpdaters = .obj (child logsUpdaters) := rfl

/-- What one level of `deepUpdate` under an updater object returns at each key of
the previous object. -/
theorem deepUpdate_obj_result (get : String → Updater) (U R : JSVal)
    (fields : List (String × JSVal)) (hU : U ≠ .undefined)
    (hnd : (fields.map Prod.fst).Nodup)
    (h : deepUpdate (.obj get) U (.obj fields) = .ok R) (k : String) (v : JSVal)
    (hkv : (k, v) ∈ fields) :
    ∃ u r, getProp U k = .ok u ∧ deepUpdate (get k) u v = .ok r ∧ getProp R k = .ok r := by
  rw [deepUpdate_obj_ok_iff get U _ R hU] at h
  obtain ⟨keys, hkeys, hok, hR⟩ := h
  simp only [objectKeys] at hkeys
  injection hkeys with hkeys
  subst hkeys
  have hk : k ∈ fields.map Prod.fst := List.mem_map.mpr ⟨(k, v), hkv, rfl⟩
  obtain ⟨r, hr⟩ := hok k hk
  have hval := valueOf_ok _ _ _ hr
  rw [mergeKey_of_mem get U fields hnd k v hkv] at hr
  cases hu : getProp U k with
  | error e => rw [hu] at hr; cases hr
  | ok u =>
    rw [hu] at hr
    refine ⟨u, r, rfl, hr, ?_⟩
    rw [hR, getProp_assignAll, if_pos hk, hval]

theorem wellShaped_inv (S : JSVal) (h : wellShaped S = true) :
    ∃ fields sv lv, S = .obj fields ∧ (fields.map Prod.fst).Nodup ∧
      (∀ k v, (k, v) ∈ fields → mirrors (child updaters k) v = true) ∧
      ("system", sv) ∈ fields ∧ allArrays sv = true ∧
      ("logs", lv) ∈ fields ∧ allArrays lv = true := by
  simp only [wellShaped, Bool.and_eq_true] at h
  obtain ⟨hm, harr⟩ := h
  rw [updaters_eq] at hm
  obtain ⟨fields, rfl, hnd, hall⟩ := mirrors_obj_inv _ S hm
  simp only [getProp_obj, Bool.and_eq_true] at harr
  cases hs : fields.lookup "system" with
  | none => rw [hs] at harr; simp [allArrays] at harr
  | some sv =>
    cases hl : fields.lookup "logs" with
    | none => rw [hl] at harr; simp [allArrays] at harr
    | some lv =>
      rw [hs, hl] at harr
      simp only [Option.getD_some] at harr
      exact ⟨fields, sv, lv, rfl, hnd, hall, lookup_mem _ _ _ hs, harr.1,
        lookup_mem _ _ _ hl, harr.2⟩

theorem wellShaped_of (fields : List (String × JSVal)) (sv lv : JSVal)
    (hm : mirrors updaters (.obj fields) = true)
    (hs : getProp (.obj fields) "system" = .ok sv) (hsa : allArrays sv = true)
    (hl : getProp (.obj fields) "logs" = .ok lv) (hla : allArrays lv = true) :
    wellShaped (.obj fields) = true := by
  simp only [wellShaped, hm, hs, hl, hsa, hla, Bool.and_self]

theorem appenderLeaf_isArray (get : String → Updater)
    (h : ∀ j, get j = .undefined ∨ get j = .fn (appender 200 replacer)) (j : String) :
    get j = .undefined ∨
      ∃ f, get j = .fn f ∧ ∀ u p r, f u p = .ok r → isArray r = true := by
  rcases h j with hj | hj
  · exact Or.inl hj
  · exact Or.inr ⟨_, hj, fun u p r hr => appender_isArray _ _ u p r hr⟩

theorem appenderLeaf_total (get : String → Updater)
    (h : ∀ j, get j = .undefined ∨ get j = .fn (appender 200 replacer)) (j : String) :
    get j = .undefined ∨
      ∃ f, get j = .fn f ∧
        ∀ u p, isArray u = true → isArray p = true → ∃ r, f u p = .ok r := by
  rcases h j with hj | hj
  · exact Or.inl hj
  · exact Or.inr ⟨_, hj, fun u p hu hp => appender_total _ _ u p hu hp⟩

/-- The well-shaped snapshots are closed under `deepUpdate(updaters, U, S)`. -/
theorem deepUpdate_wellShaped (S U R : JSVal) (hS : wellShaped S = true)
    (h : deepUpdate updaters U S = .ok R) : wellShaped R = true := by
  by_cases hU : U = .undefined
  · subst hU
    rw [deepUpdate_undefined] at h
    injection h with h
    subst h
    exact hS
  · have hmS : mirrors updaters S = true := by
      simp only [wellShaped, Bool.and_eq_true] at hS
      exact hS.1
    have hmR := (deepUpdate_mirrors updaters S U R hmS h).1
    obtain ⟨fields, sv, lv, rfl, hnd, hall, hs, hsa, hl, hla⟩ := wellShaped_inv S hS
    rw [updaters_eq] at h
    obtain ⟨us, rs, _, hrs, hRs⟩ :=
      deepUpdate_obj_result _ U R fields hU hnd h "system" sv hs
    obtain ⟨ul, rl, _, hrl, hRl⟩ :=
      deepUpdate_obj_result _ U R fields hU hnd h "logs" lv hl
    have hcs : child updaters "system" = .obj (child systemUpdaters) := rfl
    have hcl : child updaters "logs" = .obj (child logsUpdaters) := rfl
    have hms := hall "system" sv hs
    have hml := hall "logs" lv hl
    rw [hcs] at hrs hms
    rw [hcl] at hrl hml
    have hsa2 := section_keeps_arrays _ (appenderLeaf_isArray _ systemUpdaters_leaf)
      sv us rs hms hsa hrs
    have hla2 := section_keeps_arrays _ (appenderLeaf_isArray _ logsUpdaters_leaf)
      lv ul rl hml hla hrl
    rw [updaters_eq] at hmR
    obtain ⟨rfields, rfl, _, _⟩ := mirrors_obj_inv _ R hmR
    rw [← updaters_eq] at hmR
    exact wellShaped_of rfields rs rl hmR hRs hsa2 hRl hla2

theorem mem_unique (fields : List (String × JSVal)) (hnd : (fields.map Prod.fst).Nodup)
    (k : String) (v w : JSVal) (hv : (k, v) ∈ fields) (hw : (k, w) ∈ fields) : v = w := by
  have h1 := lookup_of_mem_nodup fields k v hnd hv
  have h2 := lookup_of_mem_nodup fields k w hnd hw
  rw [h1] at h2
  injection h2

/-- On a well-shaped snapshot `deepUpdate(updaters, U, S)` returns for every object
`U` whose `general`, `system` and `logs` entries are objects, the last two with
arrays as values. -/
theorem deepUpdate_updaters_total (S : JSVal) (us : List (String × JSVal))
    (hS : wellShaped S = true)
    (hus : ∀ k u, (k, u) ∈ us → u = .undefined ∨
      child updaters k = .null ∨ child updaters k = .undefined ∨
      ∃ vs, u = .obj vs ∧
        ((k = "system" ∨ k = "logs") → ∀ j x, (j, x) ∈ vs → isArray x = true)) :
    ∃ R, deepUpdate updaters (.obj us) S = .ok R := by
  obtain ⟨fields, sv, lv, rfl, hnd, hall, hs, hsa, hl, hla⟩ := wellShaped_inv S hS
  have hne : JSVal.obj us ≠ .undefined := by intro h; cases h
  rw [updaters_eq]
  refine ⟨_, (deepUpdate_obj_ok_iff _ _ _ _ hne).mpr ⟨fields.map Prod.fst, rfl, ?_, rfl⟩⟩
  intro k hk
  obtain ⟨kv, hkv, rfl⟩ := List.mem_map.mp hk
  obtain ⟨k, v⟩ := kv
  simp only []
  rw [mergeKey_of_mem _ _ fields hnd k v hkv, getProp_obj]
  simp only []
  have hmv := hall k v hkv
  cases hlk : us.lookup k with
  | none => exact ⟨v, deepUpdate_undefined _ _⟩
  | some u =>
    simp only [Option.getD_some]
    by_cases hu : u = .undefined
    · subst hu
      exact ⟨v, deepUpdate_undefined _ _⟩
    · have hmem := lookup_mem us k u hlk
      -- a section without updater is the empty object and is rebuilt empty
      have hnull : child updaters k = .null →
          ∃ r, deepUpdate (child updaters k) u v = .ok r := by
        intro hc
        rw [hc] at hmv ⊢
        have hv := mirrors_null_inv v hmv
        subst hv
        rw [deepUpdate_null u _ hu]
        exact ⟨_, rfl⟩
      have hundef : child updaters k ≠ .undefined := by
        intro hc
        rw [hc, mirrors_undefined] at hmv
        cases hmv
      rcases hus k u hmem with h0 | h0 | h0 | ⟨vs, rfl, harr⟩
      · exact absurd h0 hu
      · exact hnull h0
      · exact absurd h0 hundef
      · rcases updaters_child k with
          ⟨_, hc⟩ | ⟨hk2, hc⟩ | ⟨hk2, hc⟩ | ⟨_, _, hc | hc⟩
        · rw [hc, generalUpdaters_eq] at hmv ⊢
          exact section_total _ (fun _ => True) (fun _ => True)
            (fun j => by
              rcases generalUpdaters_leaf j with hj | ⟨f, hj, hf⟩
              · exact Or.inl hj
              · exact Or.inr ⟨f, hj, fun u p _ _ => hf u p⟩)
            v vs hmv (fun _ _ _ _ _ => trivial) (fun _ _ _ => trivial)
        · rw [hc, systemUpdaters_eq] at hmv ⊢
          subst hk2
          have hvs := mem_unique fields hnd "system" v sv hkv hs
          subst hvs
          obtain ⟨sf, hsf, hsarr⟩ := allArrays_inv v hsa
          subst hsf
          exact section_total _ (fun x => isArray x = true) (fun x => isArray x = true)
            (appenderLeaf_total _ systemUpdaters_leaf) _ vs hmv
            (fun f2 hf2 j p hjp => by
              injection hf2 with hf2
              subst hf2
              exact hsarr j p hjp)
            (harr (Or.inl rfl))
        · rw [hc, logsUpdaters_eq] at hmv ⊢
          subst hk2
          have hvs := mem_unique fields hnd "logs" v lv hkv hl
          subst hvs
          obtain ⟨lf, hlf, hlarr⟩ := allArrays_inv v hla
          subst hlf
          exact section_total _ (fun x => isArray x = true) (fun x => isArray x = true)
            (appenderLeaf_total _ logsUpdaters_leaf) _ vs hmv
            (fun f2 hf2 j p hjp => by
              injection hf2 with hf2
              subst hf2
              exact hlarr j p hjp)
            (harr (Or.inr rfl))
        · exact hnull hc
        · exact absurd hc hundef

theorem fitsSection_inv (leaf : JSVal → Bool) (v s : JSVal)
    (h : fitsSection leaf v s = true) :
    ∃ vs keys, v = .obj vs ∧ objectKeys s = .ok keys ∧
      ∀ j x, (j, x) ∈ vs → j ∈ keys ∧ leaf x = true := by
  unfold fitsSection at h
  cases v with
  | obj vs =>
    cases hk : objectKeys s with
    | error e => rw [hk] at h; simp at h
    | ok keys =>
      rw [hk] at h
      simp only [List.all_eq_true, Bool.and_eq_true, decide_eq_true_eq] at h
      exact ⟨vs, keys, rfl, rfl, fun j x hjx => h (j, x) hjx⟩
  | _ => simp at h

theorem fitsUpdate_inv (U S : JSVal) (h : fitsUpdate U S = true) :
    ∃ us keys, U = .obj us ∧ objectKeys S = .ok keys ∧
      ∀ k u, (k, u) ∈ us → k ∈ keys ∧ ∃ s, getProp S k = .ok s ∧
        fitsSection (fun x => if k = "system" ∨ k = "logs" then isArray x else true) u s
          = true := by
  unfold fitsUpdate at h
  cases U with
  | obj us =>
    cases hk : objectKeys S with
    | error e => rw [hk] at h; simp at h
    | ok keys =>
      rw [hk] at h
      simp only [List.all_eq_true, Bool.and_eq_true, decide_eq_true_eq] at h
      refine ⟨us, keys, rfl, rfl, fun k u hku => ?_⟩
      have h2 := h (k, u) hku
      refine ⟨h2.1, ?_⟩
      cases hg : getProp S k with
      | error e => rw [hg] at h2; simp at h2
      | ok s =>
        rw [hg] at h2
        exact ⟨s, rfl, h2.2⟩
  | _ => simp at h

theorem markKey_not_function (get : String → Updater) (msg : JSVal) (key : String)
    (h : isFunction (get key) = false) :
    markKey get msg key =
      match getProp msg key with
      | .error e => .error e
      | .ok m => shouldUpdate (get key) m := by
  unfold markKey
  cases hg : get key with
  | fn f => rw [hg] at h; cases h
  | _ => rfl

theorem lookup_of_mem_keys (fields : List (String × JSVal)) (key : String)
    (h : key ∈ fields.map Prod.fst) : ∃ v, fields.lookup key = some v := by
  cases hl : fields.lookup key with
  | some v => exact ⟨v, rfl⟩
  | none =>
    exfalso
    induction fields with
    | nil => simp at h
    | cons kw rest ih =>
      obtain ⟨k, w⟩ := kw
      rw [lookup_cons_if] at hl
      split at hl
      · cases hl
      · rename_i hne
        simp only [List.map_cons, List.mem_cons] at h
        rcases h with h | h
        · exact hne h
        · exact ih h hl

/-- On a well-shaped snapshot both computations of `update(msg)` return for every
message that fits the snapshot. -/
theorem shouldUpdate_updaters_total (S U : JSVal) (hS : wellShaped S = true)
    (hfit : fitsUpdate U S = true) : ∃ M, shouldUpdate updaters U = .ok M := by
  obtain ⟨fields, sv, lv, rfl, hnd, hall, _, _, _, _⟩ := wellShaped_inv S hS
  obtain ⟨us, keys, rfl, hkeys, hus⟩ := fitsUpdate_inv U _ hfit
  simp only [objectKeys] at hkeys
  injection hkeys with hkeys
  subst hkeys
  rw [updaters_eq]
  refine ⟨_, (shouldUpdate_obj_ok_iff _ _ _).mpr ⟨us.map Prod.fst, rfl, ?_, rfl⟩⟩
  intro k hk
  obtain ⟨u, hlu⟩ := lookup_of_mem_keys us k hk
  have hmem := lookup_mem us k u hlu
  obtain ⟨hkS, s, hs, hfs⟩ := hus k u hmem
  obtain ⟨kv, hkv, hkeq⟩ := List.mem_map.mp hkS
  obtain ⟨k2, v⟩ := kv
  simp only [] at hkeq
  subst hkeq
  have hsv : s = v := by
    rw [getProp_obj, lookup_of_mem_nodup fields k2 v hnd hkv] at hs
    injection hs with hs
    exact hs.symm
  subst hsv
  have hmv := hall k2 s hkv
  obtain ⟨vs, keys2, rfl, hkeys2, hvs⟩ := fitsSection_inv _ _ _ hfs
  have hsection : ∀ get : String → Updater, child updaters k2 = .obj get →
      (∀ j, get j = .undefined ∨ ∃ f, get j = .fn f) →
      ∃ v, markKey (child updaters) (.obj us) k2 = .ok v := by
    intro get hc hleaf
    rw [markKey_not_function _ _ _ (by rw [hc]; rfl), getProp_obj, hlu]
    simp only [Option.getD_some]
    rw [hc] at hmv ⊢
    obtain ⟨sf, rfl, _, _⟩ := mirrors_obj_inv get s hmv
    simp only [objectKeys] at hkeys2
    injection hkeys2 with hkeys2
    subst hkeys2
    exact section_mark_total get hleaf sf vs hmv (fun j x hjx => (hvs j x hjx).1)
  rcases updaters_child k2 with ⟨_, hc⟩ | ⟨_, hc⟩ | ⟨_, hc⟩ | ⟨_, _, hc | hc⟩
  · refine hsection _ (hc.trans generalUpdaters_eq) (fun j => ?_)
    rcases generalUpdaters_leaf j with hj | ⟨f, hj, _⟩
    · exact Or.inl hj
    · exact Or.inr ⟨f, hj⟩
  · refine hsection _ (hc.trans systemUpdaters_eq) (fun j => ?_)
    rcases systemUpdaters_leaf j with hj | hj
    · exact Or.inl hj
    · exact Or.inr ⟨_, hj⟩
  · refine hsection _ (hc.trans logsUpdaters_eq) (fun j => ?_)
    rcases logsUpdaters_leaf j with hj | hj
    · exact Or.inl hj
    · exact Or.inr ⟨_, hj⟩
  · rw [markKey_not_function _ _ _ (by rw [hc]; rfl), getProp_obj, hlu]
    simp only [Option.getD_some]
    rw [hc] at hmv ⊢
    have hs2 := mirrors_null_inv s hmv
    subst hs2
    simp only [objectKeys, List.map_nil] at hkeys2
    injection hkeys2 with hkeys2
    subst hkeys2
    cases vs with
    | nil => exact ⟨_, rfl⟩
    | cons jx rest =>
      have := (hvs jx.1 jx.2 (List.mem_cons_self _ _)).1
      simp at this
  · rw [hc, mirrors_undefined] at hmv
    cases hmv

theorem deepUpdate_fits_total (S U : JSVal) (hS : wellShaped S = true)
    (hfit : fitsUpdate U S = true) : ∃ R, deepUpdate updaters U S = .ok R := by
  obtain ⟨us, keys, rfl, _, hus⟩ := fitsUpdate_inv U _ hfit
  refine deepUpdate_updaters_total S us hS (fun k u hku => ?_)
  obtain ⟨_, s, _, hfs⟩ := hus k u hku
  obtain ⟨vs, keys2, rfl, _, hvs⟩ := fitsSection_inv _ _ _ hfs
  refine Or.inr (Or.inr (Or.inr ⟨vs, rfl, fun hk j x hjx => ?_⟩))
  have := (hvs j x hjx).2
  simpa [hk] using this

/-! ## The component -/

theorem update_ok_inv (msg : JSVal) (s t : State) (h : update msg s = .ok t) :
    deepUpdate updaters msg s.content = .ok t.content ∧
      shouldUpdate updaters msg = .ok t.shouldUpdate ∧
      t.active = s.active ∧ t.sideBar = s.sideBar := by
  unfold update at h
  cases hd : deepUpdate updaters msg s.content with
  | error e => rw [hd] at h; cases h
  | ok c =>
    rw [hd] at h
    cases hm : shouldUpdate updaters msg with
    | error e => rw [hm] at h; cases h
    | ok su =>
      rw [hm] at h
      injection h with h
      subst h
      exact ⟨rfl, rfl, rfl, rfl⟩

theorem setState_cases (updater : State → Except JSError State) (w : World) :
    (setState updater w).state = w.state ∨
      (w.mounted = true ∧ updater w.state = .ok (setState updater w).state) := by
  unfold setState
  by_cases hm : w.mounted = true
  · rw [if_pos hm]
    cases hu : updater w.state with
    | error e => exact Or.inl rfl
    | ok s => exact Or.inr ⟨hm, rfl⟩
  · rw [if_neg hm]
    exact Or.inl rfl

theorem setState_mounted (updater : State → Except JSError State) (w : World) (s : State)
    (hm : w.mounted = true) (hu : updater w.state = .ok s) :
    setState updater w = { w with state := s } := by
  simp only [setState, hm, hu, if_true]

theorem step_wellShaped (w : World) (e : Event) (h : wellShaped w.state.content = true) :
    wellShaped (step w e).state.content = true := by
  cases e with
  | onopen =>
    rcases setState_cases
      (fun s => .ok { s with content := defaultContent, shouldUpdate := .obj [] }) w
      with hs | ⟨_, hs⟩
    · have : (step w .onopen).state = w.state := hs
      rw [this]
      exact h
    · have hs2 : (step w .onopen).state
          = { w.state with content := defaultContent, shouldUpdate := .obj [] } := by
        injection hs with hs
        exact hs.symm
      rw [hs2]
      rfl
  | onmessage parsed =>
    cases parsed with
    | error err => exact h
    | ok msg =>
      simp only [step, onmessage]
      split
      · exact h
      · rcases setState_cases (update msg) w with hs | ⟨_, hs⟩
        · rw [hs]
          exact h
        · exact deepUpdate_wellShaped _ msg _ h (update_ok_inv msg _ _ hs).1
  | onclose => exact h
  | onerror => exact h
  | timeout =>
    simp only [step]
    split <;> exact h

theorem run_wellShaped (events : List Event) :
    ∀ w : World, wellShaped w.state.content = true →
      wellShaped (run w events).state.content = true := by
  induction events with
  | nil => intro w h; exact h
  | cons e rest ih =>
    intro w h
    exact ih (step w e) (step_wellShaped w e h)

theorem reachable_wellShaped (S : JSVal) (h : Reachable S) : wellShaped S = true := by
  obtain ⟨homeId, events, rfl⟩ := h
  exact run_wellShaped events (mount homeId) rfl

theorem indexOfKey_none (n : Nat) (key : String)
    (h : key ∉ (List.range n).map toString) : indexOfKey n key = none := by
  unfold indexOfKey
  rw [List.find?_eq_none]
  intro i hi hik
  apply h
  have : toString i = key := by simpa using hik
  exact List.mem_map.mpr ⟨i, hi, this⟩

/-- A key that `Object.keys` does not list reads as `undefined`. -/
theorem getProp_not_key (v : JSVal) (keys : List String) (key : String)
    (hk : objectKeys v = .ok keys) (h : key ∉ keys) : getProp v key = .ok .undefined := by
  cases v with
  | undefined => cases hk
  | null => cases hk
  | bool b => rfl
  | num n => rfl
  | str s =>
    simp only [objectKeys] at hk
    injection hk with hk
    subst hk
    simp only [getProp, indexOfKey_none _ _ h]
  | arr items =>
    simp only [objectKeys] at hk
    injection hk with hk
    subst hk
    simp only [getProp, indexOfKey_none _ _ h]
  | obj fields =>
    simp only [objectKeys] at hk
    injection hk with hk
    subst hk
    rw [getProp_obj, lookup_none_of_not_mem fields key h]
    rfl

theorem shouldUpdate_isObject (updater : Updater) (msg M : JSVal)
    (h : shouldUpdate updater msg = .ok M) : ∃ fields, M = .obj fields := by
  cases updater with
  | obj get =>
    obtain ⟨keys, _, _, hM⟩ := (shouldUpdate_obj_ok_iff get msg M).mp h
    exact ⟨_, hM⟩
  | fn f =>
    rw [shouldUpdate.eq_2] at h
    cases hk : objectKeys msg with
    | error e => rw [hk] at h; cases h
    | ok keys =>
      rw [hk] at h
      simp only [] at h
      rw [buildObject_ok_iff] at h
      exact ⟨_, h.2⟩
  | null =>
    have h2 : shouldUpdateThrowing msg = .ok M := h
    exact ⟨[], ((shouldUpdateThrowing_ok_iff msg M).mp h2).2⟩
  | undefined =>
    have h2 : shouldUpdateThrowing msg = .ok M := h
    exact ⟨[], ((shouldUpdateThrowing_ok_iff msg M).mp h2).2⟩

/-- A key without entry in the marker tree of `msg` is not a key of `msg`. -/
theorem unmarked_not_key (get : String → Updater) (msg M : JSVal) (keys : List String)
    (key : String) (h : shouldUpdate (.obj get) msg = .ok M)
    (hk : objectKeys msg = .ok keys) (hkey : getProp M key = .ok .undefined) :
    key ∉ keys := by
  obtain ⟨keys2, hk2, hok, rfl⟩ := (shouldUpdate_obj_ok_iff get msg M).mp h
  rw [hk] at hk2
  injection hk2 with hk2
  subst hk2
  intro hmem
  rw [getProp_assignAll, if_pos hmem] at hkey
  obtain ⟨v, hv⟩ := hok key hmem
  rw [valueOf_ok _ _ _ hv] at hkey
  injection hkey with hkey
  subst hkey
  unfold markKey at hv
  cases hg : get key with
  | fn f => rw [hg] at hv; cases hv
  | obj get2 =>
    rw [hg] at hv
    simp only [] at hv
    cases hm : getProp msg key with
    | error e => rw [hm] at hv; cases hv
    | ok m =>
      rw [hm] at hv
      obtain ⟨fields, hf⟩ := shouldUpdate_isObject _ m _ hv
      cases hf
  | null =>
    rw [hg] at hv
    simp only [] at hv
    cases hm : getProp msg key with
    | error e => rw [hm] at hv; cases hv
    | ok m =>
      rw [hm] at hv
      obtain ⟨fields, hf⟩ := shouldUpdate_isObject _ m _ hv
      cases hf
  | undefined =>
    rw [hg] at hv
    simp only [] at hv
    cases hm : getProp msg key with
    | error e => rw [hm] at hv; cases hv
    | ok m =>
      rw [hm] at hv
      obtain ⟨fields, hf⟩ := shouldUpdate_isObject _ m _ hv
      cases hf

/-- After `update(msg)`, a top-level key without entry in the new marker tree has
its previous content. -/
theorem update_sound (msg : JSVal) (s t : State) (h : update msg s = .ok t) (key : String)
    (hkey : getProp t.shouldUpdate key = .ok .undefined) :
    getProp t.content key = getProp s.content key := by
  obtain ⟨hd, hm, _, _⟩ := update_ok_inv msg s t h
  rw [updaters_eq] at hd hm
  cases hk : objectKeys msg with
  | error e =>
    rw [shouldUpdate_obj, hk] at hm
    cases hm
  | ok keys =>
    have hnot := unmarked_not_key _ msg _ keys key hm hk hkey
    have habsent := getProp_not_key msg keys key hk hnot
    have hU : msg ≠ .undefined := by
      rintro rfl
      cases hk
    cases hp : objectKeys s.content with
    | error e =>
      rw [deepUpdate_obj _ _ _ hU, hp] at hd
      cases hd
    | ok pkeys =>
      by_cases hin : key ∈ pkeys
      · exact deepUpdate_keeps_unaddressed (.obj (child updaters)) msg s.content t.content
          pkeys key rfl hU hp hin habsent hd
      · obtain ⟨keys2, hk2, _, hR⟩ := (deepUpdate_obj_ok_iff _ msg _ _ hU).mp hd
        rw [hp] at hk2
        injection hk2 with hk2
        subst hk2
        rw [hR, getProp_assignAll, if_neg hin, getProp_not_key _ _ key hp hin]

theorem run_append (w : World) (xs ys : List Event) :
    run w (xs ++ ys) = run (run w xs) ys := by
  simp only [run, List.foldl_append]

theorem cycle_sockets (w : World) :
    (step (step w .onclose) .timeout).sockets = w.sockets + 1 := by
  simp only [step, onclose]
  cases w.timers <;> rfl

theorem cycles_sockets (n : Nat) :
    ∀ w : World,
      (run w (List.replicate n [Event.onclose, Event.timeout]).flatten).sockets
        = w.sockets + n := by
  induction n with
  | zero => intro w; rfl
  | succ n ih =>
    intro w
    have hsplit : (List.replicate (n + 1) [Event.onclose, Event.timeout]).flatten
        = [Event.onclose, Event.timeout]
          ++ (List.replicate n [Event.onclose, Event.timeout]).flatten := by
      simp [List.replicate_succ]
    rw [hsplit, run_append, ih]
    have : run w [Event.onclose, Event.timeout] = step (step w .onclose) .timeout := rfl
    rw [this, cycle_sockets]
    omega

theorem internalPath_not_function (updater : Updater) (path : List String)
    (h : internalPath updater path = true) : isFunction (policyAt updater path) = false := by
  induction path generalizing updater with
  | nil =>
    cases updater with
    | fn f => simp [internalPath] at h
    | _ => rfl
  | cons key path ih =>
    cases updater with
    | fn f => simp [internalPath] at h
    | obj get => exact ih (get key) h
    | null => exact ih .undefined h
    | undefined => exact ih .undefined h

theorem step_mounted_of_close (w : World) : (step w .onclose).mounted = w.mounted := rfl

theorem step_mounted_of_timeout (w : World) : (step w .timeout).mounted = w.mounted := by
  simp only [step]
  cases w.timers <;> rfl

/-! ## The claims -/

/-- C1: for a positive `limit`, `appender(limit, mapper)(update, prev)` is the suffix of
`prev ++ map(mapper, update)` of length `min(limit, |prev| + |update|)`; the mapper is
applied to the incoming samples only and the order is kept. -/
theorem appender_keeps_suffix (limit : Int) (hlimit : 0 < limit) (mapper : JSVal → JSVal)
    (prev update : List JSVal) :
    ∃ kept : List JSVal,
      appender limit mapper (.arr update) (.arr prev) = .ok (.arr kept) ∧
      kept = (prev ++ update.map mapper).drop
        (prev.length + update.length - min limit.toNat (prev.length + update.length)) ∧
      kept <:+ prev ++ update.map mapper ∧
      kept.length = min limit.toNat (prev.length + update.length) := by
  refine ⟨slice (prev ++ update.map mapper) (-limit), rfl, ?_, ?_, ?_⟩
  · rw [slice_neg _ _ hlimit]
    congr 1
    simp only [List.length_append, List.length_map]
    omega
  · rw [slice_neg _ _ hlimit]
    exact List.drop_suffix _ _
  · rw [slice_neg _ _ hlimit]
    simp only [List.length_drop, List.length_append, List.length_map]
    omega

/-- C1 at `limit = 200`, the identity mapper, 200 previous and 5 incoming samples. -/
theorem appender_keeps_suffix_witness :
    (0 : Int) < 200 ∧
    ∃ kept : List JSVal,
      appender 200 replacer (.arr ((List.range 5).map fun i => .num (200 + i)))
        (.arr ((List.range 200).map fun i => .num i)) = .ok (.arr kept) ∧
      kept = (((List.range 200).map fun i => JSVal.num i) ++
          ((List.range 5).map fun i => JSVal.num (200 + i)).map replacer).drop
        (((List.range 200).map fun i => JSVal.num i).length +
          ((List.range 5).map fun i => JSVal.num (200 + i)).length -
          min (200 : Int).toNat
            (((List.range 200).map fun i => JSVal.num i).length +
              ((List.range 5).map fun i => JSVal.num (200 + i)).length)) ∧
      kept <:+ ((List.range 200).map fun i => JSVal.num i) ++
          ((List.range 5).map fun i => JSVal.num (200 + i)).map replacer ∧
      kept.length = min (200 : Int).toNat
        (((List.range 200).map fun i => JSVal.num i).length +
          ((List.range 5).map fun i => JSVal.num (200 + i)).length) :=
  ⟨by decide, appender_keeps_suffix 200 (by decide) replacer _ _⟩

/-- C2: `deepUpdate(updaters, U, S)` has the key structure of `S`: a result mirrors
`updaters` as `S` does and has the keys of `S` at every path above the functions,
whatever keys `U` has; and there is a result for every message made of objects on a
well-shaped snapshot. -/
theorem deepUpdate_preserves_shape (S U : JSVal) (hS : mirrors updaters S = true) :
    (∀ R, deepUpdate updaters U S = .ok R →
      mirrors updaters R = true ∧
        ∀ path, internalPath updaters path = true → keysAt R path = keysAt S path) ∧
    (wellShaped S = true → objectUpdate U = true → ∃ R, deepUpdate updaters U S = .ok R) := by
  refine ⟨fun R h => deepUpdate_mirrors updaters S U R hS h, fun hw hU => ?_⟩
  cases U with
  | obj us =>
    refine deepUpdate_updaters_total S us hw (fun k u hku => ?_)
    simp only [objectUpdate, List.all_eq_true] at hU
    have h := hU (k, u) hku
    cases u with
    | obj vs =>
      refine Or.inr (Or.inr (Or.inr ⟨vs, rfl, fun hk j x hjx => ?_⟩))
      simp only [hk, if_true, List.all_eq_true] at h
      exact h (j, x) hjx
    | _ => simp at h
  | _ => simp [objectUpdate] at hU

/-- C2 on the default snapshot and a frame with keys the snapshot does not have. -/
theorem deepUpdate_preserves_shape_witness :
    mirrors updaters defaultContent = true ∧
    (∀ R, deepUpdate updaters foreignFrame defaultContent = .ok R →
      mirrors updaters R = true ∧
        ∀ path, internalPath updaters path = true →
          keysAt R path = keysAt defaultContent path) ∧
    (wellShaped defaultContent = true → objectUpdate foreignFrame = true →
      ∃ R, deepUpdate updaters foreignFrame defaultContent = .ok R) :=
  ⟨rfl, deepUpdate_preserves_shape defaultContent foreignFrame rfl⟩

/-- C3: an update in which every leaf is absent leaves the snapshot as it was:
`deepUpdate(updaters, U, S)` returns `S`. -/
theorem deepUpdate_leafless_noop (S U : JSVal) (hS : mirrors updaters S = true)
    (hU : leafless updaters U = true) : deepUpdate updaters U S = .ok S :=
  deepUpdate_leafless updaters S U hS hU

/-- C3 for the frame `{}` on the default snapshot. -/
theorem deepUpdate_leafless_noop_witness :
    mirrors updaters defaultContent = true ∧ leafless updaters (.obj []) = true ∧
      deepUpdate updaters (.obj []) defaultContent = .ok defaultContent :=
  ⟨rfl, rfl, deepUpdate_leafless_noop defaultContent (.obj []) rfl rfl⟩

/-- C4: the marker tree does not follow every update: for the frame
`{"home":{"peers":3}}`, which has data at the path `home.peers`, `shouldUpdate`
reads `updaters.home["peers"]` with `updaters.home = null` and throws a TypeError,
where `deepUpdate` returns on the same frame. -/
theorem shouldUpdate_throws_under_null :
    valueAt homeFrame ["home", "peers"] = .ok (.num 3) ∧
    child updaters "home" = .null ∧
    shouldUpdate updaters homeFrame = .error .typeError ∧
    deepUpdate updaters homeFrame defaultContent = .ok defaultContent :=
  ⟨rfl, rfl, rfl, rfl⟩

/-- C5: at every node of `updaters` above its functions, for a previous value that
mirrors the node and a defined update, every key of the previous value that the
update does not address keeps its previous value in the result, whatever updater
sits at that key. -/
theorem deepUpdate_frame (path : List String) (update prev R : JSVal)
    (keys : List String) (key : String)
    (hnode : internalPath updaters path = true)
    (_hprev : mirrors (policyAt updaters path) prev = true)
    (hU : update ≠ .undefined)
    (hkeys : objectKeys prev = .ok keys) (hkey : key ∈ keys)
    (habsent : getProp update key = .ok .undefined)
    (h : deepUpdate (policyAt updaters path) update prev = .ok R) :
    getProp R key = getProp prev key :=
  deepUpdate_keeps_unaddressed (policyAt updaters path) update prev R keys key
    (internalPath_not_function updaters path hnode) hU hkeys hkey habsent h

/-- C5 one level down: under `general`, the update `{"version":"v1.8.0"}` does not
address `commit`, which keeps its previous value. -/
theorem deepUpdate_frame_witness :
    internalPath updaters ["general"] = true ∧
    mirrors (policyAt updaters ["general"])
      (.obj [("version", .null), ("commit", .str "4bb3c89d")]) = true ∧
    JSVal.obj [("version", .str "v1.8.0")] ≠ .undefined ∧
    objectKeys (.obj [("version", .null), ("commit", .str "4bb3c89d")])
      = .ok ["version", "commit"] ∧
    "commit" ∈ ["version", "commit"] ∧
    getProp (.obj [("version", .str "v1.8.0")]) "commit" = .ok .undefined ∧
    deepUpdate (policyAt updaters ["general"]) (.obj [("version", .str "v1.8.0")])
        (.obj [("version", .null), ("commit", .str "4bb3c89d")])
      = .ok (.obj [("version", .str "v1.8.0"), ("commit", .str "4bb3c89d")]) ∧
    getProp (.obj [("version", .str "v1.8.0"), ("commit", .str "4bb3c89d")]) "commit"
      = getProp (.obj [("version", .null), ("commit", .str "4bb3c89d")]) "commit" :=
  ⟨rfl, rfl, fun h => JSVal.noConfusion h, rfl, by decide, rfl, rfl,
    deepUpdate_frame ["general"] (.obj [("version", .str "v1.8.0")])
      (.obj [("version", .null), ("commit", .str "4bb3c89d")])
      (.obj [("version", .str "v1.8.0"), ("commit", .str "4bb3c89d")])
      ["version", "commit"] "commit" rfl rfl (fun h => JSVal.noConfusion h) rfl
      (by decide) rfl rfl⟩

/-- C6 as stated fails: a frame on which the `setState` updater throws, here
`{"general":null}` or `{"home":{"peers":3}}`, unmounts the component; the open
handler of the next connection then sets no state, and content and marker tree
stay what the frame `{"system":{"processCPU":[{"value":10}]}}` made them. -/
theorem reconnect_after_throwing_frame :
    update nullFrame
        (run (mount "home") [Event.onopen, Event.onmessage (.ok cpuFrame)]).state
      = .error .typeError ∧
    (run (mount "home")
        [Event.onopen, Event.onmessage (.ok cpuFrame), Event.onmessage (.ok nullFrame),
          Event.onclose, Event.timeout, Event.onopen]).state.content ≠ defaultContent ∧
    (run (mount "home")
        [Event.onopen, Event.onmessage (.ok cpuFrame), Event.onmessage (.ok nullFrame),
          Event.onclose, Event.timeout, Event.onopen]).state.shouldUpdate ≠ .obj [] ∧
    update homeFrame
        (run (mount "home") [Event.onopen, Event.onmessage (.ok cpuFrame)]).state
      = .error .typeError ∧
    (run (mount "home")
        [Event.onopen, Event.onmessage (.ok cpuFrame), Event.onmessage (.ok homeFrame),
          Event.onclose, Event.timeout, Event.onopen]).state.content ≠ defaultContent := by
  have hsys : getProp defaultContent "system" ≠ getProp cpuContent "system" := by
    simp [defaultContent, cpuContent, getProp, List.lookup]
  have hnull : (run (mount "home")
      [Event.onopen, Event.onmessage (.ok cpuFrame), Event.onmessage (.ok nullFrame),
        Event.onclose, Event.timeout, Event.onopen]).state.content = cpuContent := rfl
  have hhome : (run (mount "home")
      [Event.onopen, Event.onmessage (.ok cpuFrame), Event.onmessage (.ok homeFrame),
        Event.onclose, Event.timeout, Event.onopen]).state.content = cpuContent := rfl
  have hmark : (run (mount "home")
      [Event.onopen, Event.onmessage (.ok cpuFrame), Event.onmessage (.ok nullFrame),
        Event.onclose, Event.timeout, Event.onopen]).state.shouldUpdate
      = .obj [("system", .obj [("processCPU", .bool true)])] := rfl
  refine ⟨rfl, ?_, ?_, rfl, ?_⟩
  · rw [hnull]
    intro h
    exact hsys (by rw [h])
  · rw [hmark]
    intro h
    simp at h
  · rw [hhome]
    intro h
    exact hsys (by rw [h])

/-- C6, amended: the open handler sets the content to `defaultContent` and the marker
tree to `{}` on a mounted component, whatever they were; so does a run of open,
frames, close, the reconnect timer and open again, for every sequence of frames
after which the component is still mounted, that is, none of which made the
`setState` updater throw. -/
theorem reconnect_resets_state (w : World) (homeId : String)
    (frames : List (Except JSError JSVal))
    (hw : w.mounted = true)
    (hframes :
      (run (mount homeId) ([Event.onopen] ++ frames.map Event.onmessage)).mounted = true) :
    (step w .onopen).state.content = defaultContent ∧
    (step w .onopen).state.shouldUpdate = .obj [] ∧
    (run (mount homeId)
        ([Event.onopen] ++ frames.map Event.onmessage
          ++ [Event.onclose, Event.timeout, Event.onopen])).state.content
      = defaultContent ∧
    (run (mount homeId)
        ([Event.onopen] ++ frames.map Event.onmessage
          ++ [Event.onclose, Event.timeout, Event.onopen])).state.shouldUpdate
      = .obj [] := by
  have hopen : ∀ v : World, v.mounted = true →
      (step v .onopen).state.content = defaultContent ∧
        (step v .onopen).state.shouldUpdate = .obj [] := by
    intro v hv
    have : step v .onopen
        = { v with state :=
            { v.state with content := defaultContent, shouldUpdate := .obj [] } } :=
      setState_mounted
        (fun s => .ok { s with content := defaultContent, shouldUpdate := .obj [] })
        v _ hv rfl
    rw [this]
    exact ⟨rfl, rfl⟩
  have hsplit : [Event.onopen] ++ frames.map Event.onmessage
        ++ [Event.onclose, Event.timeout, Event.onopen]
      = ([Event.onopen] ++ frames.map Event.onmessage)
        ++ [Event.onclose, Event.timeout, Event.onopen] := rfl
  have hrun : run (mount homeId) ([Event.onopen] ++ frames.map Event.onmessage
        ++ [Event.onclose, Event.timeout, Event.onopen])
      = step (step (step (run (mount homeId)
          ([Event.onopen] ++ frames.map Event.onmessage)) .onclose) .timeout) .onopen := by
    rw [hsplit, run_append]
    rfl
  have hlast : (step (step (run (mount homeId)
      ([Event.onopen] ++ frames.map Event.onmessage)) .onclose) .timeout).mounted = true := by
    rw [step_mounted_of_timeout, step_mounted_of_close]
    exact hframes
  rw [hrun]
  exact ⟨(hopen w hw).1, (hopen w hw).2, (hopen _ hlast).1, (hopen _ hlast).2⟩

/-- C6, amended, after the frame `{"system":{"processCPU":[{"value":10}]}}`, which
makes the content differ from the default. -/
theorem reconnect_resets_state_witness :
    (run (mount "home") [Event.onopen, Event.onmessage (.ok cpuFrame)]).mounted = true ∧
    (run (mount "home")
        ([Event.onopen] ++ [Except.ok cpuFrame].map Event.onmessage)).mounted = true ∧
    (run (mount "home") [Event.onopen, Event.onmessage (.ok cpuFrame)]).state.content
      = cpuContent ∧
    (step (run (mount "home") [Event.onopen, Event.onmessage (.ok cpuFrame)])
      .onopen).state.content = defaultContent ∧
    (step (run (mount "home") [Event.onopen, Event.onmessage (.ok cpuFrame)])
      .onopen).state.shouldUpdate = .obj [] ∧
    (run (mount "home")
        ([Event.onopen] ++ [Except.ok cpuFrame].map Event.onmessage
          ++ [Event.onclose, Event.timeout, Event.onopen])).state.content
      = defaultContent ∧
    (run (mount "home")
        ([Event.onopen] ++ [Except.ok cpuFrame].map Event.onmessage
          ++ [Event.onclose, Event.timeout, Event.onopen])).state.shouldUpdate
      = .obj [] :=
  ⟨rfl, rfl, rfl,
    reconnect_resets_state
      (run (mount "home") [Event.onopen, Event.onmessage (.ok cpuFrame)]) "home"
      [Except.ok cpuFrame] rfl rfl⟩

/-- C7: on a snapshot reachable from `defaultContent`, for an update that is an object
with keys among those of the snapshot at each level and arrays under `system` and
`logs`, both `deepUpdate(updaters, U, S)` and `shouldUpdate(updaters, U)` return a
value. -/
theorem merge_and_mark_return (S U : JSVal) (hS : Reachable S)
    (hU : fitsUpdate U S = true) :
    (∃ R, deepUpdate updaters U S = .ok R) ∧ (∃ M, shouldUpdate updaters U = .ok M) :=
  ⟨deepUpdate_fits_total S U (reachable_wellShaped S hS) hU,
    shouldUpdate_updaters_total S U (reachable_wellShaped S hS) hU⟩

/-- C7 on the default snapshot, for a frame that also addresses `home` and `chain`,
whose entries in `updaters` are `null`. -/
theorem merge_and_mark_return_witness :
    Reachable defaultContent ∧
    fitsUpdate (.obj [("home", .obj []), ("chain", .obj []),
        ("general", .obj [("commit", .null)]),
        ("logs", .obj [("log", .arr [.str "started"])])]) defaultContent = true ∧
    (∃ R, deepUpdate updaters (.obj [("home", .obj []), ("chain", .obj []),
        ("general", .obj [("commit", .null)]),
        ("logs", .obj [("log", .arr [.str "started"])])]) defaultContent = .ok R) ∧
    (∃ M, shouldUpdate updaters (.obj [("home", .obj []), ("chain", .obj []),
        ("general", .obj [("commit", .null)]),
        ("logs", .obj [("log", .arr [.str "started"])])]) = .ok M) :=
  ⟨⟨"home", [], rfl⟩, by decide,
    merge_and_mark_return defaultContent _ ⟨"home", [], rfl⟩ (by decide)⟩

/-- C8: a frame that fails to parse or parses to a falsy value is discarded: the
state is what it was, no socket is created and no timer is set; one diagnostic is
left on the console. -/
theorem malformed_frame_discarded (w : World) (parsed : Except JSError JSVal)
    (h : (∃ e, parsed = .error e) ∨ (∃ msg, parsed = .ok msg ∧ falsy msg = true)) :
    (step w (.onmessage parsed)).state = w.state ∧
    (step w (.onmessage parsed)).sockets = w.sockets ∧
    (step w (.onmessage parsed)).timers = w.timers ∧
    ∃ d, (step w (.onmessage parsed)).console = w.console ++ [d] := by
  rcases h with ⟨e, rfl⟩ | ⟨msg, rfl, hf⟩
  · exact ⟨rfl, rfl, rfl, _, rfl⟩
  · have hstep : step w (.onmessage (.ok msg))
        = { w with console := w.console ++ [.consoleError msg] } := by
      simp only [step, onmessage, hf, if_true]
    rw [hstep]
    exact ⟨rfl, rfl, rfl, _, rfl⟩

/-- C8 for the frame `null` after a frame that has changed the state. -/
theorem malformed_frame_discarded_witness :
    ((∃ e, (Except.ok JSVal.null : Except JSError JSVal) = .error e) ∨
      (∃ msg, (Except.ok JSVal.null : Except JSError JSVal) = .ok msg ∧ falsy msg = true)) ∧
    (step (run (mount "home") [Event.onopen, Event.onmessage (.ok cpuFrame)])
        (.onmessage (.ok .null))).state
      = (run (mount "home") [Event.onopen, Event.onmessage (.ok cpuFrame)]).state ∧
    (step (run (mount "home") [Event.onopen, Event.onmessage (.ok cpuFrame)])
        (.onmessage (.ok .null))).sockets
      = (run (mount "home") [Event.onopen, Event.onmessage (.ok cpuFrame)]).sockets ∧
    (step (run (mount "home") [Event.onopen, Event.onmessage (.ok cpuFrame)])
        (.onmessage (.ok .null))).timers
      = (run (mount "home") [Event.onopen, Event.onmessage (.ok cpuFrame)]).timers ∧
    ∃ d, (step (run (mount "home") [Event.onopen, Event.onmessage (.ok cpuFrame)])
        (.onmessage (.ok .null))).console
      = (run (mount "home") [Event.onopen, Event.onmessage (.ok cpuFrame)]).console ++ [d] :=
  ⟨Or.inr ⟨.null, rfl, rfl⟩,
    malformed_frame_discarded _ _ (Or.inr ⟨.null, rfl, rfl⟩)⟩

/-- C9 as stated fails: an error event on the mounted component sets no timer. -/
theorem error_event_sets_no_timer :
    ¬ (∀ (w : World) (e : Event), e = .onclose ∨ e = .onerror →
      (step w e).timers = w.timers ++ [3000]) := by
  intro h
  have h2 := h (mount "home") .onerror (Or.inr rfl)
  revert h2
  decide

/-- C9, amended: every close event sets a timer of 3000 ms for `reconnect`, whatever
has happened before; the timer creates a new socket, also after any number of
close and timer rounds; an error event runs no handler. -/
theorem close_schedules_reconnect (w : World) (n : Nat) :
    (step w .onclose).timers = w.timers ++ [3000] ∧
    (step w .onclose).state = w.state ∧
    (step (step w .onclose) .timeout).sockets = w.sockets + 1 ∧
    (run w (List.replicate n [Event.onclose, Event.timeout]).flatten).sockets
      = w.sockets + n ∧
    step w .onerror = w :=
  ⟨rfl, rfl, cycle_sockets w, cycles_sockets n w, rfl⟩

/-- C10 as stated fails: after a frame has set `general.version`, the open handler
resets the content under an empty marker tree. -/
theorem open_handler_unsound :
    ¬ soundGuard (run (mount "home") [Event.onopen, Event.onmessage (.ok versionFrame)]).state
      (step (run (mount "home") [Event.onopen, Event.onmessage (.ok versionFrame)])
        Event.onopen).state := by
  intro h
  have h2 := h "general" rfl
  have hl : getProp (step (run (mount "home")
      [Event.onopen, Event.onmessage (.ok versionFrame)]) Event.onopen).state.content "general"
      = .ok (.obj [("version", .null), ("commit", .null)]) := rfl
  have hr : getProp (run (mount "home")
      [Event.onopen, Event.onmessage (.ok versionFrame)]).state.content "general"
      = .ok (.obj [("version", .str "v1.8.0"), ("commit", .null)]) := rfl
  rw [hl, hr] at h2
  simp at h2

/-- C10, amended: for every inbound frame, handled by `update(msg)` or discarded, every
top-level key without entry in the new marker tree has its previous content. -/
theorem message_guard_sound (w : World) (parsed : Except JSError JSVal) :
    soundGuard w.state (step w (.onmessage parsed)).state := by
  intro key hkey
  cases parsed with
  | error e => rfl
  | ok msg =>
    by_cases hf : falsy msg = true
    · have hstep : step w (.onmessage (.ok msg))
          = { w with console := w.console ++ [.consoleError msg] } := by
        simp only [step, onmessage, hf, if_true]
      rw [hstep]
    · have hstep : step w (.onmessage (.ok msg)) = setState (update msg) w := by
        simp only [step, onmessage, hf, Bool.false_eq_true, if_false]
      rw [hstep] at hkey ⊢
      rcases setState_cases (update msg) w with hs | ⟨_, hs⟩
      · rw [hs]
      · exact update_sound msg w.state _ hs key hkey

end Dashboard
